import Mathlib

/-!
Verification of the decimal-to-double parser (`parse_double.cpp`).

The C++ source is shallowly embedded below.  Machine integers are modelled
as `Nat` with explicit reduction modulo `2 ^ 64` exactly where the C code's
`uint64_t` arithmetic can wrap, and as `Int` with explicit two's-complement
wrapping where the C code uses `int` / `int64_t`.  The pull-based byte
stream (`DataStream`) is modelled as the list of not-yet-consumed bytes:
`datastream_fetch` in this repository is a stub that never produces further
bytes, so an empty list is end-of-input.  Fallible control flow is modelled
by explicit outcome constructors mirroring the source's `goto` targets.
-/

/-- `2 ^ 64`, the modulus of `uint64_t` arithmetic. -/
def U64 : Nat := 2 ^ 64

/-- Wrap an unbounded integer into the `int64_t` range, two's complement. -/
def wrapI64 (x : Int) : Int := (x + 2 ^ 63) % 2 ^ 64 - 2 ^ 63

/-- The C cast `(uint64_t)x` of an `int64_t` value, as a natural number. -/
def toU64 (x : Int) : Nat := (x % (2 ^ 64 : Int)).toNat

/-- The C expression `a - b` at type `uint64_t` (wrapping subtraction);
`b` is assumed below `2 ^ 64`. -/
def u64sub (a b : Nat) : Nat := (a + 2 ^ 64 - b) % 2 ^ 64

/-- The diagnostics that `fail_here` can format in `parse_double.cpp`,
one constructor per call site, carrying the bytes interpolated into the
format string. -/
inductive Msg where
  /-- "Unexpected end of stream; expected character c" (in `datastream_consume_word`). -/
  | unexpectedEndExpectedChar (c : Nat)
  /-- "Unexpected character ch; expected c" (in `datastream_consume_word`). -/
  | unexpectedCharExpected (ch c : Nat)
  /-- "Unexpected end-of-stream; expected decimal floating-point number." -/
  | unexpectedEndExpectedNumber
  /-- "Unexpected character ch in numeric literal." -/
  | unexpectedCharInLiteral (ch : Nat)
  /-- "Incomplete exponent in decimal floating-point number." -/
  | incompleteExponent
  /-- "Numeric literal without digits." -/
  | noDigits
deriving DecidableEq, Repr

/-- The `Status` record: `failed` flag and the message buffer.  `message`
is the current contents of `error_message` (each `vsnprintf` overwrites
the buffer); `writes` additionally records every message ever written,
in order, so that overwriting behaviour can be stated and proved. -/
structure Status where
  failed : Bool
  message : Option Msg
  writes : List Msg
deriving DecidableEq, Repr

/-- `fail_here` (parse_double.cpp:67-74): sets `failed` and formats the
message into the buffer, overwriting whatever was there. -/
def fail_here (st : Status) (m : Msg) : Status :=
  { failed := true, message := some m, writes := st.writes ++ [m] }

/-- A fresh status, as initialised by the callers in the test harness. -/
def status0 : Status := { failed := false, message := none, writes := [] }

/-- `datastream_consume_word` (parse_double.cpp:163-185).  Matches `word`
byte by byte.  On an exhausted stream, `datastream_fetch` (a stub that
never produces bytes) is called and the `if (st->failed) return;` check
(parse_double.cpp:168-169) returns without writing when the status is
already failed; otherwise the end-of-stream diagnostic is written.  A
mismatching byte fails but `s->ptr++; word++;` still run, so matching
continues (and can write further messages).  Returns the final status and
remaining stream. -/
def datastream_consume_word (st : Status) (s : List Nat) (word : List Nat) :
    Status × List Nat :=
  match word with
  | [] => (st, s)
  | c :: ws =>
    match s with
    | [] =>
      if st.failed then (st, [])
      else (fail_here st (.unexpectedEndExpectedChar c), [])
    | ch :: rest =>
      let st1 := if ch ≠ c then fail_here st (.unexpectedCharExpected ch c) else st
      datastream_consume_word st1 rest ws

/-- Software floating-point multiplication `mulf64` (parse_double.cpp:82-133).
Operands denote `2 ^ ex * (1 + mx / 2 ^ 64)` and `2 ^ ey * (1 + my / 2 ^ 64)`.
`_umul128` provides the high 64 bits of `mx * my`; the two wrap-detecting
additions accumulate `overflow ∈ {0, 1, 2}`; on overflow the mantissa is
shifted right one bit, the exponent incremented, and
`(uint64_t)(overflow + 1) << 63` injected into the vacated top bit. -/
def mulf64 (mx : Nat) (ex : Int) (my : Nat) (ey : Int) : Nat × Int :=
  let hi := mx * my / 2 ^ 64
  let e := ex + ey
  let o1 : Nat := if (mx + my) % 2 ^ 64 < my then 1 else 0
  let m1 := (mx + my) % 2 ^ 64
  let o2 : Nat := if (m1 + hi) % 2 ^ 64 < hi then 1 else 0
  let m2 := (m1 + hi) % 2 ^ 64
  let overflow := o1 + o2
  if overflow ≠ 0 then
    (m2 / 2 + ((overflow + 1) % 2) * 2 ^ 63, e + 1)
  else (m2, e)

/-- 10 ^ 256 mantissa (parse_double.cpp:140). -/
def mant1e256 : Nat := 0b0101010011111101110101111111011100111011111100111011110100011100
/-- 10 ^ 256 binary exponent. -/
def exp1e256 : Int := 850
/-- 10 ^ 128 mantissa. -/
def mant1e128 : Nat := 0b0010011101110100100011111001001100000001110100110001100111000000
/-- 10 ^ 128 binary exponent. -/
def exp1e128 : Int := 425
/-- 10 ^ 64 mantissa. -/
def mant1e64 : Nat := 0b1000010011110000001111101001001111111111100111110100110110101010
/-- 10 ^ 64 binary exponent. -/
def exp1e64 : Int := 212
/-- 10 ^ 32 mantissa. -/
def mant1e32 : Nat := 0b0011101110001011010110110101000001010110111000010110101100111100
/-- 10 ^ 32 binary exponent. -/
def exp1e32 : Int := 106
/-- 10 ^ 16 mantissa. -/
def mant1e16 : Nat := 0b0001110000110111100100110111111000001000000000000000000000000000
/-- 10 ^ 16 binary exponent. -/
def exp1e16 : Int := 53
/-- 10 ^ 8 mantissa. -/
def mant1e8 : Nat := 0b0111110101111000010000000000000000000000000000000000000000000000
/-- 10 ^ 8 binary exponent. -/
def exp1e8 : Int := 26
/-- 10 ^ 4 mantissa. -/
def mant1e4 : Nat := 0b0011100010000000000000000000000000000000000000000000000000000000
/-- 10 ^ 4 binary exponent. -/
def exp1e4 : Int := 13
/-- 10 ^ 2 mantissa. -/
def mant1e2 : Nat := 0b1001000000000000000000000000000000000000000000000000000000000000
/-- 10 ^ 2 binary exponent. -/
def exp1e2 : Int := 6
/-- 10 ^ 1 mantissa. -/
def mant1e1 : Nat := 0b0100000000000000000000000000000000000000000000000000000000000000
/-- 10 ^ 1 binary exponent. -/
def exp1e1 : Int := 3

/-- 10 ^ -256 mantissa (parse_double.cpp:152). -/
def mant1en256 : Nat := 0b1000000001100010100001100100101011000110111101000011001001110100
/-- 10 ^ -256 binary exponent. -/
def exp1en256 : Int := -851
/-- 10 ^ -128 mantissa. -/
def mant1en128 : Nat := 0b1011101110100000100011001111100011001001011110011100100101000001
/-- 10 ^ -128 binary exponent. -/
def exp1en128 : Int := -426
/-- 10 ^ -64 mantissa. -/
def mant1en64 : Nat := 0b0101000011111111110101000100111101001010011100111101001101001010
/-- 10 ^ -64 binary exponent. -/
def exp1en64 : Int := -213
/-- 10 ^ -32 mantissa. -/
def mant1en32 : Nat := 0b1001111101100010001111010101101010001010011100110010100101110101
/-- 10 ^ -32 binary exponent. -/
def exp1en32 : Int := -107
/-- 10 ^ -16 mantissa. -/
def mant1en16 : Nat := 0b1100110100101011001010010111110110001000100110111100001010110111
/-- 10 ^ -16 binary exponent. -/
def exp1en16 : Int := -54
/-- 10 ^ -8 mantissa. -/
def mant1en8 : Nat := 0b0101011110011000111011100010001100001000110000111001110111111010
/-- 10 ^ -8 binary exponent. -/
def exp1en8 : Int := -27
/-- 10 ^ -4 mantissa. -/
def mant1en4 : Nat := 0b1010001101101110001011101011000111000100001100101100101001011000
/-- 10 ^ -4 binary exponent. -/
def exp1en4 : Int := -14
/-- 10 ^ -2 mantissa. -/
def mant1en2 : Nat := 0b0100011110101110000101000111101011100001010001111010111000010100
/-- 10 ^ -2 binary exponent. -/
def exp1en2 : Int := -7
/-- 10 ^ -1 mantissa. -/
def mant1en1 : Nat := 0b1001100110011001100110011001100110011001100110011001100110011010
/-- 10 ^ -1 binary exponent. -/
def exp1en1 : Int := -4

/-- The scanner state of `parse_double` (parse_double.cpp:201-207). -/
structure ScanState where
  negative : Bool
  mantissa : Nat
  digits : Nat
  significant_digits : Nat
  /-- `int64_t`; negative means no decimal point seen yet. -/
  fractional_digits : Int
  /-- `uint64_t`; counts only towards positive decimal exponents. -/
  decimal_exponent : Nat
deriving DecidableEq, Repr

/-- The initial scanner state. -/
def initState : ScanState :=
  { negative := false, mantissa := 0, digits := 0, significant_digits := 0,
    fractional_digits := -1, decimal_exponent := 0 }

/-- Outcome of the scanning phase of `parse_double`: one constructor per
exit path of the scanner (the `goto` targets `failed`,
`return_possibly_signed_zero`, `return_possibly_signed_infinity`, the `nan`
return, and falling through to `end_of_number`).  Each carries the status
and the remaining stream. -/
inductive ScanOut where
  | failed (st : Status) (s : List Nat)
  | zero (neg : Bool) (st : Status) (s : List Nat)
  | inf (neg : Bool) (st : Status) (s : List Nat)
  | nan (neg : Bool) (st : Status) (s : List Nat)
  | done (sc : ScanState) (st : Status) (s : List Nat)
deriving DecidableEq, Repr

/-- One digit of the main accumulation loop (parse_double.cpp:240-269):
`digits++`; if `mantissa` exceeds `1844674407370955161 - (digit_value >= 6)`
the `:MantissaLimit` branch pins `significant_digits` to 20 and, before the
decimal point, counts the digit in `decimal_exponent`; otherwise the digit
is accumulated into `mantissa` with the significant-digit and
fractional-digit bookkeeping. -/
def digit_step (sc : ScanState) (dv : Nat) : ScanState :=
  let sc := { sc with digits := sc.digits + 1 }
  if sc.mantissa > 1844674407370955161 - (if 6 ≤ dv then 1 else 0) then
    { sc with
      significant_digits := 20,
      decimal_exponent :=
        if sc.fractional_digits < 0 then (sc.decimal_exponent + 1) % 2 ^ 64
        else sc.decimal_exponent }
  else
    { sc with
      mantissa := (10 * sc.mantissa + dv) % 2 ^ 64,
      significant_digits :=
        if dv ≠ 0 ∨ sc.significant_digits ≠ 0 then sc.significant_digits + 1
        else sc.significant_digits,
      fractional_digits :=
        if 0 ≤ sc.fractional_digits then sc.fractional_digits + 1
        else sc.fractional_digits }

/-- The merge of an explicit exponent into the scanner state at
`end_of_exponent` (parse_double.cpp:318-356).  A negative exponent folds
against `decimal_exponent` first and then becomes additional
`fractional_digits` (underflow saturates to signed zero); otherwise any
pending `fractional_digits` are folded away first and the rest increments
`decimal_exponent` (overflow saturates to signed infinity). -/
def end_of_exponent (sc : ScanState) (st : Status) (negExp : Bool)
    (absExp : Nat) (s : List Nat) : ScanOut :=
  if negExp ∧ absExp ≠ 0 then
    let p :=
      if absExp ≤ sc.decimal_exponent then (sc.decimal_exponent - absExp, 0)
      else (0, absExp - sc.decimal_exponent)
    let fd0 := if sc.fractional_digits < 0 then 0 else sc.fractional_digits
    let fd1 := wrapI64 (fd0 + p.2)
    if fd1 < 0 ∨ toU64 fd1 < p.2 then .zero sc.negative st s
    else .done { sc with decimal_exponent := p.1, fractional_digits := fd1 } st s
  else
    let q :=
      if 0 < sc.fractional_digits then
        if absExp ≤ toU64 sc.fractional_digits then
          (wrapI64 (sc.fractional_digits - wrapI64 absExp), 0)
        else (0, absExp - toU64 sc.fractional_digits)
      else (sc.fractional_digits, absExp)
    let de1 := (sc.decimal_exponent + q.2) % 2 ^ 64
    if de1 < q.2 then .inf sc.negative st s
    else .done { sc with fractional_digits := q.1, decimal_exponent := de1 } st s

/-- The exponent-digit loop (parse_double.cpp:296-317): accumulates
`absolute_exponent` with the same per-digit overflow guard as the mantissa;
on overflow it saturates immediately to signed zero (negative exponent or
no significant digits) or signed infinity. -/
def exponent_loop (sc : ScanState) (st : Status) (negExp : Bool)
    (absExp : Nat) (s : List Nat) : ScanOut :=
  match s with
  | [] => end_of_exponent sc st negExp absExp []
  | ch :: rest =>
    let dv := u64sub ch 48
    if dv ≤ 9 then
      if absExp > 1844674407370955161 - (if 6 ≤ dv then 1 else 0) then
        if negExp ∨ sc.significant_digits = 0 then .zero sc.negative st (ch :: rest)
        else .inf sc.negative st (ch :: rest)
      else exponent_loop sc st negExp ((10 * absExp + dv) % 2 ^ 64) rest
    else end_of_exponent sc st negExp absExp (ch :: rest)

/-- `parse_exponent` (parse_double.cpp:277-295), entered with the stream
positioned after the consumed `e`/`E`: end of input here is the
"Incomplete exponent" error; otherwise an optional sign byte is consumed
(anything else is put back) and the exponent digits are accumulated. -/
def parse_exponent (sc : ScanState) (st : Status) (s : List Nat) : ScanOut :=
  match s with
  | [] => .failed (fail_here st .incompleteExponent) []
  | ch :: rest =>
    if ch = 45 then exponent_loop sc st true 0 rest
    else if ch = 43 then exponent_loop sc st false 0 rest
    else exponent_loop sc st false 0 (ch :: rest)

/-- The skip loop entered once `significant_digits >= 20`
(parse_double.cpp:388-410): remaining digits are skipped, counting digits
before the decimal point towards `decimal_exponent`; a first decimal point
switches to fractional mode; `e`/`E` enters the exponent; anything else
ends the number at that byte. -/
def skip_loop (sc : ScanState) (st : Status) (s : List Nat) : ScanOut :=
  match s with
  | [] => .done sc st []
  | ch :: rest =>
    if ch = 46 ∧ sc.fractional_digits < 0 then
      skip_loop { sc with fractional_digits := 0 } st rest
    else if ch = 101 ∨ ch = 69 then parse_exponent sc st rest
    else if ch < 48 ∨ 57 < ch then .done sc st (ch :: rest)
    else
      skip_loop
        (if sc.fractional_digits < 0 then
          { sc with decimal_exponent := (sc.decimal_exponent + 1) % 2 ^ 64 }
         else sc) st rest

/-- The main scanning loop of `parse_double` (parse_double.cpp:236-415).
Digits go through `digit_step` (switching to `skip_loop` once
`significant_digits >= 20`); a second decimal point ends the number at
that byte; `e`/`E` after at least one digit enters the exponent; `i`/`n`
before any digit match the words `inf`/`nan`; any other byte ends the
number at that byte; end of input ends the number. -/
def main_loop (sc : ScanState) (st : Status) (s : List Nat) : ScanOut :=
  match s with
  | [] => .done sc st []
  | ch :: rest =>
    let dv := u64sub ch 48
    if dv ≤ 9 then
      let sc1 := digit_step sc dv
      if 20 ≤ sc1.significant_digits then skip_loop sc1 st rest
      else main_loop sc1 st rest
    else if ch = 46 then
      if 0 ≤ sc.fractional_digits then .done sc st (ch :: rest)
      else
        let sc1 := { sc with fractional_digits := 0 }
        if 20 ≤ sc1.significant_digits then skip_loop sc1 st rest
        else main_loop sc1 st rest
    else if (ch = 101 ∨ ch = 69) ∧ sc.digits ≠ 0 then
      parse_exponent sc st rest
    else if ch = 105 ∧ sc.digits = 0 then
      let r := datastream_consume_word st (ch :: rest) [105, 110, 102]
      if r.1.failed then .failed r.1 r.2 else .inf sc.negative r.1 r.2
    else if ch = 110 ∧ sc.digits = 0 then
      let r := datastream_consume_word st (ch :: rest) [110, 97, 110]
      if r.1.failed then .failed r.1 r.2 else .nan sc.negative r.1 r.2
    else .done sc st (ch :: rest)

/-- The entry of `parse_double` (parse_double.cpp:189-233): the first byte
is consumed and dispatched (`-`, `+`, digit, `.`, `i`, `n`, or an
"Unexpected character" failure); empty input is an immediate failure. -/
def parse_start (st : Status) (s : List Nat) : ScanOut :=
  match s with
  | [] => .failed (fail_here st .unexpectedEndExpectedNumber) []
  | ch :: rest =>
    if ch = 45 then main_loop { initState with negative := true } st rest
    else if ch = 43 then main_loop initState st rest
    else if ch = 48 then main_loop { initState with digits := 1 } st rest
    else if 49 ≤ ch ∧ ch ≤ 57 then
      main_loop
        { initState with mantissa := ch - 48, digits := 1, significant_digits := 1 }
        st rest
    else if ch = 46 then main_loop { initState with fractional_digits := 0 } st rest
    else if ch = 105 then
      let r := datastream_consume_word st (ch :: rest) [105, 110, 102]
      if r.1.failed then .failed r.1 r.2 else .inf false r.1 r.2
    else if ch = 110 then
      let r := datastream_consume_word st (ch :: rest) [110, 97, 110]
      if r.1.failed then .failed r.1 r.2 else .nan false r.1 r.2
    else .failed (fail_here st (.unexpectedCharInLiteral ch)) rest

/-- The bit pattern returned at `return_possibly_signed_zero`
(parse_double.cpp:428-433). -/
def zeroBits (neg : Bool) : Nat := if neg then 0x8000000000000000 else 0

/-- The bit pattern returned at `return_possibly_signed_infinity`
(parse_double.cpp:363-369). -/
def infBits (neg : Bool) : Nat := if neg then 0xFFF0000000000000 else 0x7FF0000000000000

/-- The bit pattern returned for `nan` (parse_double.cpp:376-381). -/
def nanBits (neg : Bool) : Nat := if neg then 0xFFFFFFFFFFFFFFFF else 0x7FFFFFFFFFFFFFFF

/-- Mantissa normalisation (parse_double.cpp:456-463, the portable branch):
shift the leading `1` bit of the 64-bit accumulator up to bit 63 by the
six conditional shifts, record `binexp = 63 - shift`, then shift out the
leading bit. -/
def normalize_mantissa (m : Nat) : Nat × Int :=
  let p : Nat × Int := (m, 63)
  let p := if p.1 &&& 0xffffffff00000000 = 0 then (p.1 <<< 32, p.2 - 32) else p
  let p := if p.1 &&& 0xffff000000000000 = 0 then (p.1 <<< 16, p.2 - 16) else p
  let p := if p.1 &&& 0xff00000000000000 = 0 then (p.1 <<< 8, p.2 - 8) else p
  let p := if p.1 &&& 0xf000000000000000 = 0 then (p.1 <<< 4, p.2 - 4) else p
  let p := if p.1 &&& 0xc000000000000000 = 0 then (p.1 <<< 2, p.2 - 2) else p
  let p := if p.1 &&& 0x8000000000000000 = 0 then (p.1 <<< 1, p.2 - 1) else p
  ((p.1 <<< 1) % 2 ^ 64, p.2)

/-- The power-of-ten corrections (parse_double.cpp:469-494): one `mulf64`
per set bit of the decimal shift, using the negative-power table for
`fractional_digits` and the positive-power table for `decimal_exponent`. -/
def apply_negative_powers (p : Nat × Int) (n : Nat) : Nat × Int :=
  let p := if n &&& 256 ≠ 0 then mulf64 p.1 p.2 mant1en256 exp1en256 else p
  let p := if n &&& 128 ≠ 0 then mulf64 p.1 p.2 mant1en128 exp1en128 else p
  let p := if n &&& 64 ≠ 0 then mulf64 p.1 p.2 mant1en64 exp1en64 else p
  let p := if n &&& 32 ≠ 0 then mulf64 p.1 p.2 mant1en32 exp1en32 else p
  let p := if n &&& 16 ≠ 0 then mulf64 p.1 p.2 mant1en16 exp1en16 else p
  let p := if n &&& 8 ≠ 0 then mulf64 p.1 p.2 mant1en8 exp1en8 else p
  let p := if n &&& 4 ≠ 0 then mulf64 p.1 p.2 mant1en4 exp1en4 else p
  let p := if n &&& 2 ≠ 0 then mulf64 p.1 p.2 mant1en2 exp1en2 else p
  if n &&& 1 ≠ 0 then mulf64 p.1 p.2 mant1en1 exp1en1 else p

/-- Positive-power variant of the corrections (parse_double.cpp:485-493). -/
def apply_positive_powers (p : Nat × Int) (n : Nat) : Nat × Int :=
  let p := if n &&& 256 ≠ 0 then mulf64 p.1 p.2 mant1e256 exp1e256 else p
  let p := if n &&& 128 ≠ 0 then mulf64 p.1 p.2 mant1e128 exp1e128 else p
  let p := if n &&& 64 ≠ 0 then mulf64 p.1 p.2 mant1e64 exp1e64 else p
  let p := if n &&& 32 ≠ 0 then mulf64 p.1 p.2 mant1e32 exp1e32 else p
  let p := if n &&& 16 ≠ 0 then mulf64 p.1 p.2 mant1e16 exp1e16 else p
  let p := if n &&& 8 ≠ 0 then mulf64 p.1 p.2 mant1e8 exp1e8 else p
  let p := if n &&& 4 ≠ 0 then mulf64 p.1 p.2 mant1e4 exp1e4 else p
  let p := if n &&& 2 ≠ 0 then mulf64 p.1 p.2 mant1e2 exp1e2 else p
  if n &&& 1 ≠ 0 then mulf64 p.1 p.2 mant1e1 exp1e1 else p

/-- The result of a `parse_double` call: final status, the 64-bit IEEE-754
pattern of the returned `double`, and the unconsumed remainder of the
stream (`s->ptr` position). -/
structure PDResult where
  status : Status
  bits : Nat
  rest : List Nat
deriving DecidableEq, Repr

/-- Rounding and assembly (parse_double.cpp:511-538): if the bits below
the kept 52 exceed half a unit in the last place, round up (renormalising
on mantissa wrap); exponent above 1023 overflows to signed infinity;
otherwise the pattern is assembled from sign, biased exponent, and the top
52 stored mantissa bits. -/
def round_and_assemble (neg : Bool) (st : Status) (m : Nat) (binexp : Int)
    (s : List Nat) : PDResult :=
  let p : Nat × Int :=
    if m &&& 0xFFF > 0x800 then
      let m1 := (m + 2 ^ 11) % 2 ^ 64
      if m1 < 2 ^ 11 then (m1 / 2, binexp + 1) else (m1, binexp)
    else (m, binexp)
  if p.2 > 1023 then ⟨st, infBits neg, s⟩
  else
    let mf := p.1 >>> 12
    let mf := mf ||| (toU64 (p.2 + 1023) <<< 52) % 2 ^ 64
    let mf := if neg then mf ||| 0x8000000000000000 else mf
    ⟨st, mf, s⟩

/-- The subnormal adjustment (parse_double.cpp:496-507) followed by
rounding and assembly: a binary exponent at or below -1023 either
underflows to signed zero (shortfall beyond 64 bits) or has the implicit
leading bit re-inserted explicitly and the mantissa shifted right by the
shortfall, clamping the exponent to -1023. -/
def subnormal_and_round (neg : Bool) (st : Status) (m : Nat) (binexp : Int)
    (s : List Nat) : PDResult :=
  if binexp ≤ -1023 then
    if binexp ≤ -1023 - 64 then ⟨st, zeroBits neg, s⟩
    else
      round_and_assemble neg st
        (((m / 2) ||| 0x8000000000000000) >>> (-binexp - 1023).toNat) (-1023) s
  else round_and_assemble neg st m binexp s

/-- The `end_of_number` phase (parse_double.cpp:417-538): the no-digits
error, the zero-significant-digits signed zero, normalisation, the
power-of-ten corrections with their `>= 512` overflow/underflow
saturation, the subnormal adjustment, and rounding/assembly. -/
def end_of_number (sc : ScanState) (st : Status) (s : List Nat) : PDResult :=
  if sc.digits = 0 then ⟨fail_here st .noDigits, 0, s⟩
  else if sc.significant_digits = 0 then ⟨st, zeroBits sc.negative, s⟩
  else
    let p := normalize_mantissa sc.mantissa
    if 0 < sc.fractional_digits then
      if 512 ≤ sc.fractional_digits then ⟨st, zeroBits sc.negative, s⟩
      else
        let p := apply_negative_powers p (toU64 sc.fractional_digits)
        subnormal_and_round sc.negative st p.1 p.2 s
    else if sc.decimal_exponent ≠ 0 then
      if 512 ≤ sc.decimal_exponent then ⟨st, infBits sc.negative, s⟩
      else
        let p := apply_positive_powers p sc.decimal_exponent
        subnormal_and_round sc.negative st p.1 p.2 s
    else subnormal_and_round sc.negative st p.1 p.2 s

/-- `parse_double` (parse_double.cpp:187-542): scan the literal, then
finish at `end_of_number`; the direct returns for signed zero, signed
infinity and `nan` produce their fixed bit patterns; every failure path
returns `0.0` (the all-zero pattern). -/
def parse_double (st : Status) (s : List Nat) : PDResult :=
  match parse_start st s with
  | .failed st1 s1 => ⟨st1, 0, s1⟩
  | .zero neg st1 s1 => ⟨st1, zeroBits neg, s1⟩
  | .inf neg st1 s1 => ⟨st1, infBits neg, s1⟩
  | .nan neg st1 s1 => ⟨st1, nanBits neg, s1⟩
  | .done sc st1 s1 => end_of_number sc st1 s1

/-! ### Helper facts about the byte-level digit test -/

/-- `2 ^ 64` as a numeral, for arithmetic automation. -/
theorem two_pow_64_eq : (2 : Nat) ^ 64 = 18446744073709551616 := by norm_num

/-- The C test `(uint64_t)(ch - '0') <= 9` recognises exactly the ASCII
digit bytes. -/
theorem u64sub_digit_iff {ch : Nat} (h : ch < 256) :
    u64sub ch 48 ≤ 9 ↔ 48 ≤ ch ∧ ch ≤ 57 := by
  unfold u64sub
  rw [two_pow_64_eq]
  omega

/-- On an ASCII digit byte, `(uint64_t)(ch - '0')` is the digit value. -/
theorem u64sub_digit_val {ch : Nat} (h1 : 48 ≤ ch) (h2 : ch < 256) :
    u64sub ch 48 = ch - 48 := by
  unfold u64sub
  rw [two_pow_64_eq]
  omega

/-! ### Concrete input literals (ASCII byte lists) -/

/-- The bytes of the 6-byte input `123abc`. -/
def lit123abc : List Nat := [49, 50, 51, 97, 98, 99]

/-- The bytes of the input `1.5.2`. -/
def lit152 : List Nat := [49, 46, 53, 46, 50]

/-- The bytes of the input `..`. -/
def litDotDot : List Nat := [46, 46]

/-- The bytes of the input `ixy`. -/
def litIxy : List Nat := [105, 120, 121]

/-- The bytes of the input `9007199254740995` (the odd integer
`2 ^ 53 + 3`, exactly halfway between the doubles `2 ^ 53 + 2` and
`2 ^ 53 + 4`). -/
def litTie : List Nat := [57, 48, 48, 55, 49, 57, 57, 50, 53, 52, 55, 52, 48, 57, 57, 53]

/-! ### Claim C9 -/

/-- Claim C9: each of the inputs `""` (empty), `"."`, `"e5"`, `"1e"` and
`"-"` (alone) makes `parse_double` set `Status.failed = true`. -/
theorem C9_error_literals :
    (parse_double status0 []).status.failed = true ∧
    (parse_double status0 [46]).status.failed = true ∧
    (parse_double status0 [101, 53]).status.failed = true ∧
    (parse_double status0 [49, 101]).status.failed = true ∧
    (parse_double status0 [45]).status.failed = true := by
  decide

/-! ### Claim C6 -/

/-- Claim C6, counterexample: on the input `".."` a second decimal point is
encountered while scanning, and `parse_double` fails (the truncated
literal has no digits), with the cursor left at the second point; so it is
not true that a second decimal point never results in a failure. -/
theorem C6_counterexample :
    (parse_double status0 litDotDot).status.failed = true ∧
    (parse_double status0 litDotDot).rest = [46] := by
  decide

/-- Claim C6, amended: a second decimal point ends the literal immediately
before itself — in both the main scanning loop and the skip loop the state
and stream are returned unchanged at the point byte, without any failure
being recorded by the point itself — and the truncated literal is then
finished normally (input `1.5.2` parses to 1.5 with the cursor on the
second point); the truncated literal may however still fail for reasons of
its own, such as containing no digits. -/
theorem C6_amended_second_point :
    (∀ (sc : ScanState) (st : Status) (rest : List Nat), 0 ≤ sc.fractional_digits →
      main_loop sc st (46 :: rest) = .done sc st (46 :: rest)) ∧
    (∀ (sc : ScanState) (st : Status) (rest : List Nat), 0 ≤ sc.fractional_digits →
      skip_loop sc st (46 :: rest) = .done sc st (46 :: rest)) ∧
    parse_double status0 lit152 =
      ⟨status0, 0x3FF8000000000000, [46, 50]⟩ := by
  refine ⟨?_, ?_, by decide⟩
  · intro sc st rest h
    rw [main_loop]
    have h1 : ¬ u64sub 46 48 ≤ 9 := by decide
    simp only [h1, if_false, if_pos rfl, not_lt.mpr h, if_true]
    rw [if_pos h]
  · intro sc st rest h
    rw [skip_loop]
    have h1 : ¬ (46 = 46 ∧ sc.fractional_digits < 0) := fun hc => absurd hc.2 (not_lt.mpr h)
    rw [if_neg h1, if_neg (by decide), if_pos (by decide)]

/-- Closed witness for the hypotheses of the amended C6 statement, at a
concrete scanner state that has seen a decimal point. -/
theorem C6_amended_witness :
    main_loop ⟨false, 15, 2, 2, 1, 0⟩ status0 (46 :: [50]) =
      .done ⟨false, 15, 2, 2, 1, 0⟩ status0 (46 :: [50]) ∧
    skip_loop ⟨false, 15, 2, 2, 1, 0⟩ status0 (46 :: [50]) =
      .done ⟨false, 15, 2, 2, 1, 0⟩ status0 (46 :: [50]) :=
  ⟨C6_amended_second_point.1 _ status0 [50] (by decide),
   C6_amended_second_point.2.1 _ status0 [50] (by decide)⟩

/-! ### Claim C8 -/

/-- Claim C8: in the main scanning loop, any byte that cannot extend the
literal (not a digit, not a point, not an exponent marker, not the start
of an `inf`/`nan` continuation) ends the literal with the cursor exactly at
that byte; in particular `123abc` parses successfully to 123.0 consuming
exactly `123`, leaving the cursor at `a`. -/
theorem C8_cursor_position :
    (∀ (sc : ScanState) (st : Status) (ch : Nat) (rest : List Nat),
      ch < 256 → ¬ (48 ≤ ch ∧ ch ≤ 57) → ch ≠ 46 → ch ≠ 101 → ch ≠ 69 →
      ch ≠ 105 → ch ≠ 110 →
      main_loop sc st (ch :: rest) = .done sc st (ch :: rest)) ∧
    parse_double status0 lit123abc =
      ⟨status0, 0x405EC00000000000, [97, 98, 99]⟩ := by
  refine ⟨?_, by decide⟩
  intro sc st ch rest hlt hdig h46 h101 h69 h105 h110
  rw [main_loop]
  have h1 : ¬ u64sub ch 48 ≤ 9 := fun hc => hdig ((u64sub_digit_iff hlt).mp hc)
  simp only [h1, if_false]
  rw [if_neg h46, if_neg (fun hc => hc.1.elim h101 h69),
      if_neg (fun hc => h105 hc.1), if_neg (fun hc => h110 hc.1)]

/-- Closed witness for the hypotheses of the C8 statement: the byte `a`
(0x61) ends the literal with the cursor at that byte. -/
theorem C8_cursor_position_witness :
    main_loop ⟨false, 123, 3, 3, -1, 0⟩ status0 (97 :: [98, 99]) =
      .done ⟨false, 123, 3, 3, -1, 0⟩ status0 (97 :: [98, 99]) :=
  C8_cursor_position.1 _ status0 97 [98, 99] (by decide) (by decide) (by decide)
    (by decide) (by decide) (by decide) (by decide)

/-! ### Claim C3 -/

/-- Claim C3: the guard `mantissa > 1844674407370955161 - (digit_value >= 6)`
fails exactly when `10 * mantissa + digit` still fits in a `uint64_t`; when it
fits the accumulator takes exactly that value (no wrap-around modulo
`2 ^ 64`); when it would overflow the mantissa is left unchanged (and
`significant_digits` pinned to 20, so all further digits take the skip
loop): before the decimal point the digit increments `decimal_exponent`,
after it the digit leaves both `decimal_exponent` and `fractional_digits`
unchanged; and in the skip loop every further digit likewise leaves the
mantissa untouched, incrementing `decimal_exponent` only before the
decimal point. -/
theorem C3_overflow_containment (sc : ScanState) (dv : Nat) (hdv : dv ≤ 9) :
    (¬ sc.mantissa > 1844674407370955161 - (if 6 ≤ dv then 1 else 0) ↔
      10 * sc.mantissa + dv < 2 ^ 64) ∧
    (10 * sc.mantissa + dv < 2 ^ 64 →
      (digit_step sc dv).mantissa = 10 * sc.mantissa + dv) ∧
    (¬ 10 * sc.mantissa + dv < 2 ^ 64 →
      (digit_step sc dv).mantissa = sc.mantissa ∧
      (digit_step sc dv).significant_digits = 20 ∧
      (sc.fractional_digits < 0 →
        (digit_step sc dv).decimal_exponent = (sc.decimal_exponent + 1) % 2 ^ 64) ∧
      (0 ≤ sc.fractional_digits →
        (digit_step sc dv).decimal_exponent = sc.decimal_exponent ∧
        (digit_step sc dv).fractional_digits = sc.fractional_digits)) ∧
    (∀ (st : Status) (ch : Nat) (rest : List Nat), 48 ≤ ch → ch ≤ 57 →
      (sc.fractional_digits < 0 →
        skip_loop sc st (ch :: rest) =
          skip_loop { sc with decimal_exponent := (sc.decimal_exponent + 1) % 2 ^ 64 }
            st rest) ∧
      (0 ≤ sc.fractional_digits →
        skip_loop sc st (ch :: rest) = skip_loop sc st rest)) := by
  have hiff : ¬ sc.mantissa > 1844674407370955161 - (if 6 ≤ dv then 1 else 0) ↔
      10 * sc.mantissa + dv < 2 ^ 64 := by
    rw [two_pow_64_eq]
    by_cases h6 : 6 ≤ dv <;> simp only [h6, if_true, if_false] <;> omega
  refine ⟨hiff, ?_, ?_, ?_⟩
  · intro hfit
    unfold digit_step
    rw [if_neg (hiff.mpr hfit)]
    exact Nat.mod_eq_of_lt hfit
  · intro hover
    unfold digit_step
    rw [if_pos (by by_contra hc; exact hover (hiff.mp hc))]
    refine ⟨rfl, rfl, fun hfd => by simp [if_pos hfd], fun hfd => ?_⟩
    exact ⟨by simp [if_neg (not_lt.mpr hfd)], rfl⟩
  · intro st ch rest h48 h57
    have hch46 : ¬ (ch = 46 ∧ sc.fractional_digits < 0) := fun hc => by omega
    have hche : ¬ (ch = 101 ∨ ch = 69) := fun hc => by omega
    have hchd : ¬ (ch < 48 ∨ 57 < ch) := fun hc => by omega
    constructor
    · intro hfd
      rw [skip_loop, if_neg hch46, if_neg hche, if_neg hchd, if_pos hfd]
    · intro hfd
      rw [skip_loop, if_neg hch46, if_neg hche, if_neg hchd, if_neg (not_lt.mpr hfd)]

/-- Closed witness for the hypotheses of C3, at the state reached after 19
nines where the next digit (also a nine) would overflow the accumulator. -/
theorem C3_overflow_containment_witness :
    (¬ (9999999999999999999 : Nat) > 1844674407370955161 - (if (6:Nat) ≤ 9 then 1 else 0) ↔
      10 * 9999999999999999999 + 9 < 2 ^ 64) ∧
    (digit_step ⟨false, 9999999999999999999, 19, 19, -1, 0⟩ 9).mantissa =
      9999999999999999999 :=
  ⟨(C3_overflow_containment ⟨false, 9999999999999999999, 19, 19, -1, 0⟩ 9 (by decide)).1,
   ((C3_overflow_containment ⟨false, 9999999999999999999, 19, 19, -1, 0⟩ 9
      (by decide)).2.2.1 (by decide)).1⟩

/-! ### Claim C5 -/

/-- Claim C5: numeric overflow and underflow saturate without error: at
`end_of_number` a net negative decimal power of at least 512 yields signed
zero and a net positive decimal power of at least 512 yields signed
infinity, in both cases returning the status unchanged (`failed` stays
false); the same saturation (signed zero or signed infinity, status
unchanged) happens as soon as the explicit-exponent accumulator would
overflow; concretely, `1e512`, `-1e512` give signed infinity, `1e-512`,
`-1e-512` give signed zero, and a 20-nines exponent saturates likewise,
all with `failed` still false. -/
theorem C5_saturation :
    (∀ (sc : ScanState) (st : Status) (s : List Nat),
      sc.digits ≠ 0 → sc.significant_digits ≠ 0 →
      (512 ≤ sc.fractional_digits →
        end_of_number sc st s = ⟨st, zeroBits sc.negative, s⟩) ∧
      (sc.fractional_digits ≤ 0 → 512 ≤ sc.decimal_exponent →
        end_of_number sc st s = ⟨st, infBits sc.negative, s⟩)) ∧
    (∀ (sc : ScanState) (st : Status) (negExp : Bool) (absExp ch : Nat)
        (rest : List Nat),
      u64sub ch 48 ≤ 9 →
      absExp > 1844674407370955161 - (if 6 ≤ u64sub ch 48 then 1 else 0) →
      exponent_loop sc st negExp absExp (ch :: rest) =
        if negExp ∨ sc.significant_digits = 0 then .zero sc.negative st (ch :: rest)
        else .inf sc.negative st (ch :: rest)) ∧
    parse_double status0 [49, 101, 53, 49, 50] = ⟨status0, infBits false, []⟩ ∧
    parse_double status0 [49, 101, 45, 53, 49, 50] = ⟨status0, zeroBits false, []⟩ ∧
    parse_double status0 [45, 49, 101, 53, 49, 50] = ⟨status0, infBits true, []⟩ ∧
    parse_double status0 [45, 49, 101, 45, 53, 49, 50] = ⟨status0, zeroBits true, []⟩ ∧
    parse_double status0
        [49, 101, 57, 57, 57, 57, 57, 57, 57, 57, 57, 57, 57, 57, 57, 57, 57, 57, 57, 57, 57, 57] =
      ⟨status0, infBits false, [57]⟩ ∧
    parse_double status0
        [49, 101, 45, 57, 57, 57, 57, 57, 57, 57, 57, 57, 57, 57, 57, 57, 57, 57, 57, 57, 57, 57, 57] =
      ⟨status0, zeroBits false, [57]⟩ := by
  refine ⟨?_, ?_, by decide, by decide, by decide, by decide, by decide, by decide⟩
  · intro sc st s hd hs
    constructor
    · intro hfd
      unfold end_of_number
      rw [if_neg hd, if_neg hs, if_pos (by omega), if_pos hfd]
    · intro hfd hde
      unfold end_of_number
      rw [if_neg hd, if_neg hs, if_neg (not_lt.mpr hfd), if_pos (by omega),
        if_pos hde]
  · intro sc st negExp absExp ch rest hdig hover
    rw [exponent_loop, if_pos hdig, if_pos hover]

/-- Closed witness for the hypotheses of C5, at a concrete saturating state
and a concrete overflowing exponent accumulator. -/
theorem C5_saturation_witness :
    end_of_number ⟨false, 1, 1, 1, 512, 0⟩ status0 [] = ⟨status0, zeroBits false, []⟩ ∧
    end_of_number ⟨true, 1, 1, 1, -1, 512⟩ status0 [] = ⟨status0, infBits true, []⟩ ∧
    exponent_loop ⟨false, 1, 1, 1, -1, 0⟩ status0 false 9999999999999999999 [57] =
      .inf false status0 [57] :=
  ⟨(C5_saturation.1 ⟨false, 1, 1, 1, 512, 0⟩ status0 [] (by decide) (by decide)).1
      (by decide),
   (C5_saturation.1 ⟨true, 1, 1, 1, -1, 512⟩ status0 [] (by decide) (by decide)).2
      (by decide) (by decide),
   (C5_saturation.2.1 ⟨false, 1, 1, 1, -1, 0⟩ status0 false
      9999999999999999999 57 [] (by decide) (by decide)).trans (by decide)⟩

/-! ### Status evolution machinery (for claims C7 and C10) -/

/-- The status carried by a scanner outcome. -/
def ScanOut.statusOf : ScanOut → Status
  | .failed st _ => st
  | .zero _ st _ => st
  | .inf _ st _ => st
  | .nan _ st _ => st
  | .done _ st _ => st

/-- The message buffer always holds the most recent write (`vsnprintf`
overwrites the buffer). -/
def Status.WF (st : Status) : Prop := st.message = st.writes.getLast?

/-- `fail_here` appends to the write log, keeps the buffer equal to the
last write, and sets `failed`. -/
theorem fail_here_spec (st : Status) (m : Msg) :
    (fail_here st m).writes = st.writes ++ [m] ∧
    (fail_here st m).failed = true ∧ Status.WF (fail_here st m) := by
  refine ⟨rfl, rfl, ?_⟩
  show some m = (st.writes ++ [m]).getLast?
  rw [List.getLast?_concat]

/-- How a status can evolve across part of a `parse_double` call: the write
log only grows, buffer-holds-last-write is preserved, and the status is
completely unchanged unless `failed` was set. -/
def StatusEvolves (st st1 : Status) : Prop :=
  (∃ δ, st1.writes = st.writes ++ δ) ∧
  (Status.WF st → Status.WF st1) ∧ (st1.failed = false → st1 = st)

theorem statusEvolves_refl (st : Status) : StatusEvolves st st :=
  ⟨⟨[], by simp⟩, fun h => h, fun _ => rfl⟩

theorem statusEvolves_trans {st st1 st2 : Status} (h1 : StatusEvolves st st1)
    (h2 : StatusEvolves st1 st2) : StatusEvolves st st2 := by
  obtain ⟨⟨d1, hd1⟩, hw1, hu1⟩ := h1
  obtain ⟨⟨d2, hd2⟩, hw2, hu2⟩ := h2
  refine ⟨⟨d1 ++ d2, by rw [hd2, hd1, List.append_assoc]⟩, fun h => hw2 (hw1 h), ?_⟩
  intro hf
  have e2 := hu2 hf
  rw [e2] at hf ⊢
  exact hu1 hf

theorem statusEvolves_fail (st : Status) (m : Msg) :
    StatusEvolves st (fail_here st m) :=
  ⟨⟨[m], (fail_here_spec st m).1⟩, fun _ => (fail_here_spec st m).2.2,
   fun h => absurd h (by simp [fail_here])⟩

/-- `datastream_consume_word` only evolves the status. -/
theorem consume_word_evolves (word : List Nat) : ∀ (st : Status) (s : List Nat),
    StatusEvolves st (datastream_consume_word st s word).1 := by
  induction word with
  | nil =>
    intro st s
    rw [datastream_consume_word]
    exact statusEvolves_refl st
  | cons c ws ih =>
    intro st s
    cases s with
    | nil =>
      rw [datastream_consume_word]
      by_cases hf : st.failed
      · rw [if_pos hf]
        exact statusEvolves_refl st
      · rw [if_neg hf]
        exact statusEvolves_fail st _
    | cons ch rest =>
      rw [datastream_consume_word]
      try dsimp only
      by_cases h : ch ≠ c
      · rw [if_pos h]
        exact statusEvolves_trans (statusEvolves_fail st _) (ih ..)
      · rw [if_neg h]
        exact ih ..

/-- `end_of_exponent` never touches the status. -/
theorem end_of_exponent_status (sc : ScanState) (st : Status) (negExp : Bool)
    (absExp : Nat) (s : List Nat) :
    (end_of_exponent sc st negExp absExp s).statusOf = st := by
  unfold end_of_exponent
  try dsimp only
  split_ifs <;> rfl

/-- `exponent_loop` never touches the status. -/
theorem exponent_loop_status (s : List Nat) : ∀ (sc : ScanState) (st : Status)
    (negExp : Bool) (absExp : Nat),
    (exponent_loop sc st negExp absExp s).statusOf = st := by
  induction s with
  | nil => intro sc st negExp absExp; exact end_of_exponent_status ..
  | cons ch rest ih =>
    intro sc st negExp absExp
    rw [exponent_loop]
    try dsimp only
    split_ifs <;> first
      | rfl
      | exact ih ..
      | exact end_of_exponent_status ..

/-- `parse_exponent` only evolves the status. -/
theorem parse_exponent_evolves (sc : ScanState) (st : Status) (s : List Nat) :
    StatusEvolves st (parse_exponent sc st s).statusOf := by
  cases s with
  | nil =>
    rw [parse_exponent]
    exact statusEvolves_fail st _
  | cons ch rest =>
    rw [parse_exponent]
    split_ifs <;> (rw [exponent_loop_status]; exact statusEvolves_refl st)

/-- `skip_loop` only evolves the status. -/
theorem skip_loop_evolves (s : List Nat) : ∀ (sc : ScanState) (st : Status),
    StatusEvolves st (skip_loop sc st s).statusOf := by
  induction s with
  | nil => intro sc st; exact statusEvolves_refl st
  | cons ch rest ih =>
    intro sc st
    rw [skip_loop]
    try dsimp only
    split_ifs <;> first
      | exact statusEvolves_refl st
      | exact ih ..
      | exact parse_exponent_evolves ..

/-- `main_loop` only evolves the status. -/
theorem main_loop_evolves (s : List Nat) : ∀ (sc : ScanState) (st : Status),
    StatusEvolves st (main_loop sc st s).statusOf := by
  induction s with
  | nil => intro sc st; exact statusEvolves_refl st
  | cons ch rest ih =>
    intro sc st
    rw [main_loop]
    try dsimp only
    split_ifs
    all_goals dsimp only [ScanOut.statusOf]
    all_goals first
      | exact statusEvolves_refl st
      | exact ih ..
      | exact skip_loop_evolves ..
      | exact parse_exponent_evolves ..
      | exact consume_word_evolves ..

/-- `parse_start` only evolves the status. -/
theorem parse_start_evolves (st : Status) (s : List Nat) :
    StatusEvolves st (parse_start st s).statusOf := by
  cases s with
  | nil =>
    rw [parse_start]
    exact statusEvolves_fail st _
  | cons ch rest =>
    rw [parse_start]
    try dsimp only
    split_ifs
    all_goals dsimp only [ScanOut.statusOf]
    all_goals first
      | exact statusEvolves_fail st _
      | exact main_loop_evolves ..
      | exact consume_word_evolves ..

/-- `round_and_assemble` never touches the status. -/
theorem round_and_assemble_status (neg : Bool) (st : Status) (m : Nat)
    (binexp : Int) (s : List Nat) :
    (round_and_assemble neg st m binexp s).status = st := by
  unfold round_and_assemble
  try dsimp only
  split_ifs <;> rfl

/-- `subnormal_and_round` never touches the status. -/
theorem subnormal_and_round_status (neg : Bool) (st : Status) (m : Nat)
    (binexp : Int) (s : List Nat) :
    (subnormal_and_round neg st m binexp s).status = st := by
  unfold subnormal_and_round
  split_ifs <;> first | rfl | exact round_and_assemble_status ..

/-- `end_of_number` only evolves the status, and when it changes the status
(the no-digits failure) the returned bits are zero. -/
theorem end_of_number_evolves (sc : ScanState) (st : Status) (s : List Nat) :
    StatusEvolves st (end_of_number sc st s).status ∧
    ((end_of_number sc st s).status ≠ st → (end_of_number sc st s).bits = 0) := by
  unfold end_of_number
  by_cases hd : sc.digits = 0
  · rw [if_pos hd]
    exact ⟨statusEvolves_fail st _, fun _ => rfl⟩
  · rw [if_neg hd]
    try dsimp only
    split_ifs <;>
      first
        | exact ⟨statusEvolves_refl st, fun h => absurd rfl h⟩
        | (rw [subnormal_and_round_status]
           exact ⟨statusEvolves_refl st, fun h => absurd rfl h⟩)

/-- Whether the outcome is the `failed` exit. -/
def ScanOut.isFailed : ScanOut → Bool
  | .failed _ _ => true
  | _ => false

/-- A `parse_exponent` outcome that is not `failed` has an unchanged status. -/
theorem parse_exponent_not_failed (sc : ScanState) (st : Status) (s : List Nat) :
    (parse_exponent sc st s).isFailed = false →
    (parse_exponent sc st s).statusOf = st := by
  cases s with
  | nil =>
    intro hnf
    rw [parse_exponent] at hnf
    simp [ScanOut.isFailed] at hnf
  | cons ch rest =>
    intro _
    rw [parse_exponent]
    split_ifs <;> rw [exponent_loop_status]

/-- A `skip_loop` outcome that is not `failed` has an unchanged status. -/
theorem skip_loop_not_failed (s : List Nat) : ∀ (sc : ScanState) (st : Status),
    (skip_loop sc st s).isFailed = false → (skip_loop sc st s).statusOf = st := by
  induction s with
  | nil => intro sc st _; rfl
  | cons ch rest ih =>
    intro sc st
    rw [skip_loop]
    try dsimp only
    split_ifs
    all_goals intro hnf
    all_goals first
      | rfl
      | exact ih _ _ hnf
      | exact parse_exponent_not_failed _ _ _ hnf

/-- A `main_loop` outcome that is not `failed` has an unchanged status. -/
theorem main_loop_not_failed (s : List Nat) : ∀ (sc : ScanState) (st : Status),
    (main_loop sc st s).isFailed = false → (main_loop sc st s).statusOf = st := by
  induction s with
  | nil => intro sc st _; rfl
  | cons ch rest ih =>
    intro sc st
    rw [main_loop]
    try dsimp only
    split_ifs
    all_goals intro hnf
    all_goals first
      | rfl
      | exact ih _ _ hnf
      | exact skip_loop_not_failed _ _ _ hnf
      | exact parse_exponent_not_failed _ _ _ hnf
      | exact (consume_word_evolves _ st _).2.2 (by simp_all [ScanOut.isFailed])

/-- A `parse_start` outcome that is not `failed` has an unchanged status. -/
theorem parse_start_not_failed (st : Status) (s : List Nat) :
    (parse_start st s).isFailed = false → (parse_start st s).statusOf = st := by
  cases s with
  | nil =>
    intro hnf
    rw [parse_start] at hnf
    simp [ScanOut.isFailed] at hnf
  | cons ch rest =>
    rw [parse_start]
    try dsimp only
    split_ifs
    all_goals intro hnf
    all_goals first
      | exact main_loop_not_failed _ _ _ hnf
      | exact (consume_word_evolves _ st _).2.2 (by simp_all [ScanOut.isFailed])
      | simp [ScanOut.isFailed] at hnf

/-! ### Claim C10 -/

/-- Claim C10: whenever a `parse_double` call (entered with a fresh,
unfailed status) sets `Status.failed`, the value it returns is exactly
`+0.0`: the all-zero 64-bit pattern. -/
theorem C10_failed_returns_zero (st0 : Status) (s : List Nat)
    (h0 : st0.failed = false)
    (hf : (parse_double st0 s).status.failed = true) :
    (parse_double st0 s).bits = 0 := by
  have hnf := parse_start_not_failed st0 s
  unfold parse_double at hf ⊢
  cases hE : parse_start st0 s with
  | failed st1 s1 => rfl
  | zero neg st1 s1 =>
    rw [hE] at hf hnf
    have h1 : st1 = st0 := hnf rfl
    dsimp only at hf
    rw [h1, h0] at hf
    exact Bool.noConfusion hf
  | inf neg st1 s1 =>
    rw [hE] at hf hnf
    have h1 : st1 = st0 := hnf rfl
    dsimp only at hf
    rw [h1, h0] at hf
    exact Bool.noConfusion hf
  | nan neg st1 s1 =>
    rw [hE] at hf hnf
    have h1 : st1 = st0 := hnf rfl
    dsimp only at hf
    rw [h1, h0] at hf
    exact Bool.noConfusion hf
  | done sc st1 s1 =>
    rw [hE] at hf hnf
    have h1 : st1 = st0 := hnf rfl
    subst h1
    dsimp only at hf ⊢
    obtain ⟨hev, hbits⟩ := end_of_number_evolves sc st1 s1
    by_cases he : (end_of_number sc st1 s1).status = st1
    · rw [he, h0] at hf
      exact Bool.noConfusion hf
    · exact hbits he

/-- Closed witness for C10 at the empty input, which fails. -/
theorem C10_failed_returns_zero_witness :
    status0.failed = false ∧
    (parse_double status0 []).status.failed = true ∧
    (parse_double status0 []).bits = 0 :=
  ⟨by decide, by decide, C10_failed_returns_zero status0 [] (by decide) (by decide)⟩

/-! ### Claim C7 -/

/-- Claim C7, counterexample: on the input `ixy`, the first mismatch (`x`
where `n` was expected) sets `failed` and writes a diagnostic, but
`datastream_consume_word` keeps matching and the second mismatch (`y` where
`f` was expected) overwrites the buffer: two writes happen and the
recorded message is the second one, not the first failure's. -/
theorem C7_counterexample :
    (parse_double status0 litIxy).status.failed = true ∧
    (parse_double status0 litIxy).status.writes =
      [Msg.unexpectedCharExpected 120 110, Msg.unexpectedCharExpected 121 102] ∧
    (parse_double status0 litIxy).status.message =
      some (Msg.unexpectedCharExpected 121 102) ∧
    Msg.unexpectedCharExpected 121 102 ≠ Msg.unexpectedCharExpected 120 110 := by
  decide

/-- Claim C7, amended: across a whole `parse_double` call entered with an
unfailed status (the source's calling convention; once `failed` is set,
the fetch-site `if (st->failed)` checks stop any further call early) the
diagnostic write log only grows, the message buffer always holds the most
recent write (so when several mismatches occur inside
`datastream_consume_word` the last failure's message, not the first
one's, is the one recorded), and unless `failed` is set the status is
returned completely untouched; every failure short-circuits to the
terminal failed result. -/
theorem C7_amended_write_behaviour (st0 : Status) (s : List Nat)
    (h0 : Status.WF st0) (hf0 : st0.failed = false) :
    (∃ δ, (parse_double st0 s).status.writes = st0.writes ++ δ) ∧
    Status.WF (parse_double st0 s).status ∧
    ((parse_double st0 s).status.failed = false →
      (parse_double st0 s).status = st0) := by
  have hps := parse_start_evolves st0 s
  unfold parse_double
  cases hE : parse_start st0 s with
  | failed st1 s1 =>
    rw [hE] at hps
    exact ⟨hps.1, hps.2.1 h0, hps.2.2⟩
  | zero neg st1 s1 =>
    rw [hE] at hps
    exact ⟨hps.1, hps.2.1 h0, hps.2.2⟩
  | inf neg st1 s1 =>
    rw [hE] at hps
    exact ⟨hps.1, hps.2.1 h0, hps.2.2⟩
  | nan neg st1 s1 =>
    rw [hE] at hps
    exact ⟨hps.1, hps.2.1 h0, hps.2.2⟩
  | done sc st1 s1 =>
    rw [hE] at hps
    have hps1 : StatusEvolves st0 st1 := hps
    have htr := statusEvolves_trans hps1 (end_of_number_evolves sc st1 s1).1
    exact ⟨htr.1, htr.2.1 h0, htr.2.2⟩

/-- Closed witness for the hypothesis of the amended C7 statement, at the
`ixy` input with a fresh status. -/
theorem C7_amended_write_behaviour_witness :
    (Status.WF status0 ∧ status0.failed = false) ∧
    ((∃ δ, (parse_double status0 litIxy).status.writes = status0.writes ++ δ) ∧
      Status.WF (parse_double status0 litIxy).status ∧
      ((parse_double status0 litIxy).status.failed = false →
        (parse_double status0 litIxy).status = status0)) :=
  ⟨⟨by rfl, by rfl⟩, C7_amended_write_behaviour status0 litIxy (by rfl) (by rfl)⟩

/-! ### Claim C4 -/

/-- The scanner invariant asserted at `end_of_number`
(parse_double.cpp:419): the negative decimal power (`fractional_digits`)
and the positive one (`decimal_exponent`) are never both active. -/
def ScanInv (sc : ScanState) : Prop :=
  sc.fractional_digits ≤ 0 ∨ sc.decimal_exponent = 0

theorem wrapI64_zero : wrapI64 0 = 0 := by decide

/-- The exponent merge preserves the scanner invariant. -/
theorem end_of_exponent_inv (sc : ScanState) (st : Status) (negExp : Bool)
    (absExp : Nat) (s : List Nat) (hinv : ScanInv sc) {sc' : ScanState}
    {st' : Status} {s' : List Nat}
    (h : end_of_exponent sc st negExp absExp s = .done sc' st' s') :
    ScanInv sc' := by
  unfold end_of_exponent at h
  by_cases h1 : negExp = true ∧ absExp ≠ 0
  · rw [if_pos h1] at h
    try dsimp only at h
    by_cases h2 : absExp ≤ sc.decimal_exponent
    · rw [if_pos h2] at h
      try dsimp only at h
      have hde : sc.decimal_exponent ≠ 0 := fun h0 => h1.2 (by omega)
      have hfd : sc.fractional_digits ≤ 0 := hinv.resolve_right hde
      have hfd0 : (if sc.fractional_digits < 0 then (0 : Int)
          else sc.fractional_digits) = 0 := by
        split_ifs <;> omega
      rw [hfd0] at h
      simp only [Nat.cast_zero, add_zero, wrapI64_zero] at h
      split_ifs at h
      all_goals first
        | exact ScanOut.noConfusion h
        | (injection h with hsc hst hs; subst hsc; exact Or.inl le_rfl)
    · rw [if_neg h2] at h
      try dsimp only at h
      split_ifs at h
      all_goals first
        | exact ScanOut.noConfusion h
        | (injection h with hsc hst hs; subst hsc; exact Or.inr rfl)
  · rw [if_neg h1] at h
    try dsimp only at h
    by_cases h5 : 0 < sc.fractional_digits
    · rw [if_pos h5] at h
      try dsimp only at h
      have hde : sc.decimal_exponent = 0 := hinv.resolve_left (by omega)
      rw [hde] at h
      by_cases h6 : absExp ≤ toU64 sc.fractional_digits
      · rw [if_pos h6] at h
        try dsimp only at h
        simp only [Nat.add_zero, Nat.zero_mod] at h
        split_ifs at h
        all_goals first
          | exact ScanOut.noConfusion h
          | (injection h with hsc hst hs; subst hsc; exact Or.inr rfl)
      · rw [if_neg h6] at h
        try dsimp only at h
        split_ifs at h
        all_goals first
          | exact ScanOut.noConfusion h
          | (injection h with hsc hst hs; subst hsc; exact Or.inl le_rfl)
    · rw [if_neg h5] at h
      try dsimp only at h
      split_ifs at h
      all_goals first
        | exact ScanOut.noConfusion h
        | (injection h with hsc hst hs; subst hsc;
           exact Or.inl (show sc.fractional_digits ≤ 0 by omega))

/-- The exponent-digit loop preserves the scanner invariant. -/
theorem exponent_loop_inv (s : List Nat) : ∀ (sc : ScanState) (st : Status)
    (negExp : Bool) (absExp : Nat), ScanInv sc →
    ∀ {sc' : ScanState} {st' : Status} {s' : List Nat},
    exponent_loop sc st negExp absExp s = .done sc' st' s' → ScanInv sc' := by
  induction s with
  | nil =>
    intro sc st negExp absExp hinv sc' st' s' h
    rw [exponent_loop] at h
    exact end_of_exponent_inv _ _ _ _ _ hinv h
  | cons ch rest ih =>
    intro sc st negExp absExp hinv sc' st' s' h
    rw [exponent_loop] at h
    try dsimp only at h
    split_ifs at h
    all_goals first
      | exact ScanOut.noConfusion h
      | exact ih _ _ _ _ hinv h
      | exact end_of_exponent_inv _ _ _ _ _ hinv h

/-- `parse_exponent` preserves the scanner invariant. -/
theorem parse_exponent_inv (sc : ScanState) (st : Status) (s : List Nat)
    (hinv : ScanInv sc) {sc' : ScanState} {st' : Status} {s' : List Nat}
    (h : parse_exponent sc st s = .done sc' st' s') : ScanInv sc' := by
  cases s with
  | nil =>
    rw [parse_exponent] at h
    exact ScanOut.noConfusion h
  | cons ch rest =>
    rw [parse_exponent] at h
    split_ifs at h
    all_goals exact exponent_loop_inv _ _ _ _ _ hinv h

/-- The skip loop preserves the scanner invariant. -/
theorem skip_loop_inv (s : List Nat) : ∀ (sc : ScanState) (st : Status),
    ScanInv sc → ∀ {sc' : ScanState} {st' : Status} {s' : List Nat},
    skip_loop sc st s = .done sc' st' s' → ScanInv sc' := by
  induction s with
  | nil =>
    intro sc st hinv sc' st' s' h
    rw [skip_loop] at h
    injection h with h1 h2 h3
    subst h1
    exact hinv
  | cons ch rest ih =>
    intro sc st hinv sc' st' s' h
    rw [skip_loop] at h
    try dsimp only at h
    split_ifs at h with h1 h2 h3 h4
    · refine ih _ _ ?_ h
      exact Or.inl le_rfl
    · exact parse_exponent_inv _ _ _ hinv h
    · injection h with ha hb hc
      subst ha
      exact hinv
    · refine ih _ _ ?_ h
      exact Or.inl (le_of_lt h4)
    · exact ih _ _ hinv h

/-- A digit step started with `decimal_exponent = 0` yields an invariant
state. -/
theorem digit_step_inv {sc : ScanState} (hde : sc.decimal_exponent = 0)
    (dv : Nat) : ScanInv (digit_step sc dv) := by
  unfold ScanInv digit_step
  dsimp only
  split_ifs <;> simp only [two_pow_64_eq] <;> omega

/-- A digit step that does not reach the significant-digit cap leaves
`decimal_exponent` unchanged. -/
theorem digit_step_de {sc : ScanState} {dv : Nat}
    (h : ¬ 20 ≤ (digit_step sc dv).significant_digits) :
    (digit_step sc dv).decimal_exponent = sc.decimal_exponent := by
  unfold digit_step at h ⊢
  dsimp only at h ⊢
  split_ifs at h ⊢ <;> first | exact absurd (le_refl 20) h | rfl

/-- The main loop, entered with `decimal_exponent = 0`, ends in an
invariant state. -/
theorem main_loop_inv (s : List Nat) : ∀ (sc : ScanState) (st : Status),
    sc.decimal_exponent = 0 →
    ∀ {sc' : ScanState} {st' : Status} {s' : List Nat},
    main_loop sc st s = .done sc' st' s' → ScanInv sc' := by
  induction s with
  | nil =>
    intro sc st hde sc' st' s' h
    rw [main_loop] at h
    injection h with h1 h2 h3
    subst h1
    exact Or.inr hde
  | cons ch rest ih =>
    intro sc st hde sc' st' s' h
    rw [main_loop] at h
    try dsimp only at h
    split_ifs at h
    all_goals first
      | exact ScanOut.noConfusion h
      | (injection h with ha hb hc; subst ha; exact Or.inr hde)
      | exact skip_loop_inv _ _ _ (digit_step_inv hde _) h
      | (refine ih _ _ ?_ h; rw [digit_step_de (by assumption)]; exact hde)
      | (refine skip_loop_inv _ _ _ ?_ h; exact Or.inl le_rfl)
      | (refine ih _ _ ?_ h; exact hde)
      | exact parse_exponent_inv _ _ _ (Or.inr hde) h

/-- Claim C4: whenever `parse_double` reaches the `end_of_number` phase,
the scanner state satisfies `fractional_digits <= 0` or
`decimal_exponent = 0` (the assertion at parse_double.cpp:419), so at most
one of the two power-of-ten correction branches can apply. -/
theorem C4_end_of_number_invariant (st : Status) (s : List Nat)
    {sc' : ScanState} {st' : Status} {s' : List Nat}
    (h : parse_start st s = .done sc' st' s') :
    sc'.fractional_digits ≤ 0 ∨ sc'.decimal_exponent = 0 := by
  cases s with
  | nil =>
    rw [parse_start] at h
    exact ScanOut.noConfusion h
  | cons ch rest =>
    rw [parse_start] at h
    try dsimp only at h
    split_ifs at h
    all_goals first
      | exact ScanOut.noConfusion h
      | exact main_loop_inv _ _ _ rfl h

/-- Closed witness for C4: the literal `1.5` reaches `end_of_number` in a
state satisfying the invariant. -/
theorem C4_end_of_number_invariant_witness :
    parse_start status0 [49, 46, 53] =
      .done ⟨false, 15, 2, 2, 1, 0⟩ status0 [] ∧
    (((⟨false, 15, 2, 2, 1, 0⟩ : ScanState).fractional_digits ≤ 0) ∨
      (⟨false, 15, 2, 2, 1, 0⟩ : ScanState).decimal_exponent = 0) :=
  ⟨by decide,
   @C4_end_of_number_invariant status0 [49, 46, 53] ⟨false, 15, 2, 2, 1, 0⟩
     status0 [] (by decide)⟩

/-! ### Claim C2 -/

/-- The exact value denoted by an Extended Float pair `(m, e)`:
`2 ^ e * (1 + m / 2 ^ 64)`. -/
def extFloatVal (m : Nat) (e : Int) : ℚ := (2 : ℚ) ^ e * (1 + (m : ℚ) / 2 ^ 64)

/-- Integer-level behaviour of `mulf64`: the result mantissa stays below
`2 ^ 64`, the exponent grows by the carry `d ∈ {0, 1}`, and
`(2 ^ 64 + m') * 2 ^ (64 + d)` is the truncation of
`(2 ^ 64 + mx) * (2 ^ 64 + my)`. -/
theorem mulf64_core (mx my : Nat) (ex ey : Int) (hx : mx < 2 ^ 64)
    (hy : my < 2 ^ 64) :
    (mulf64 mx ex my ey).1 < 2 ^ 64 ∧
    ∃ d : Nat, d ≤ 1 ∧ (mulf64 mx ex my ey).2 = ex + ey + d ∧
      (2 ^ 64 + (mulf64 mx ex my ey).1) * 2 ^ (64 + d) ≤
        (2 ^ 64 + mx) * (2 ^ 64 + my) ∧
      (2 ^ 64 + mx) * (2 ^ 64 + my) <
        (2 ^ 64 + (mulf64 mx ex my ey).1 + 1) * 2 ^ (64 + d) := by
  have hq : mx * my < 2 ^ 64 * 2 ^ 64 :=
    mul_lt_mul'' hx hy (Nat.zero_le _) (Nat.zero_le _)
  have hmul : mx * my / 2 ^ 64 * 2 ^ 64 + mx * my % 2 ^ 64 = mx * my := by
    rw [Nat.mul_comm (mx * my / 2 ^ 64)]
    exact Nat.div_add_mod _ _
  have hexp : (2 ^ 64 + mx) * (2 ^ 64 + my) =
      2 ^ 64 * 2 ^ 64 + mx * 2 ^ 64 + my * 2 ^ 64 +
        (mx * my / 2 ^ 64 * 2 ^ 64 + mx * my % 2 ^ 64) := by
    rw [hmul]; ring
  unfold mulf64
  dsimp only
  by_cases c1 : (mx + my) % 2 ^ 64 < my <;>
    by_cases c2 : ((mx + my) % 2 ^ 64 + mx * my / 2 ^ 64) % 2 ^ 64 <
      mx * my / 2 ^ 64
  · rw [if_pos c1, if_pos c2, if_pos (by norm_num : (1 + 1 : Nat) ≠ 0)]
    refine ⟨by simp only [two_pow_64_eq] at *; omega, 1, le_rfl, by norm_num, ?_, ?_⟩ <;>
      simp only [two_pow_64_eq, show (2:Nat) ^ (64 + 1) = 36893488147419103232 by norm_num,
        show (2:Nat) ^ 63 = 9223372036854775808 by norm_num,
        show (1 + 1 + 1) % 2 = 1 by norm_num, one_mul] at * <;>
      omega
  · rw [if_pos c1, if_neg c2, if_pos (by norm_num : (1 + 0 : Nat) ≠ 0)]
    refine ⟨by simp only [two_pow_64_eq] at *; omega, 1, le_rfl, by norm_num, ?_, ?_⟩ <;>
      simp only [two_pow_64_eq, show (2:Nat) ^ (64 + 1) = 36893488147419103232 by norm_num,
        show (2:Nat) ^ 63 = 9223372036854775808 by norm_num,
        show (1 + 0 + 1) % 2 = 0 by norm_num, zero_mul, add_zero] at * <;>
      omega
  · rw [if_neg c1, if_pos c2, if_pos (by norm_num : (0 + 1 : Nat) ≠ 0)]
    refine ⟨by simp only [two_pow_64_eq] at *; omega, 1, le_rfl, by norm_num, ?_, ?_⟩ <;>
      simp only [two_pow_64_eq, show (2:Nat) ^ (64 + 1) = 36893488147419103232 by norm_num,
        show (2:Nat) ^ 63 = 9223372036854775808 by norm_num,
        show (0 + 1 + 1) % 2 = 0 by norm_num, zero_mul, add_zero] at * <;>
      omega
  · rw [if_neg c1, if_neg c2, if_neg (by norm_num : ¬ (0 + 0 : Nat) ≠ 0)]
    refine ⟨by simp only [two_pow_64_eq] at *; omega, 0, Nat.zero_le _, by norm_num, ?_, ?_⟩ <;>
      simp only [two_pow_64_eq, show (2:Nat) ^ (64 + 0) = 18446744073709551616 by norm_num] at * <;>
      omega

/-- Claim C2: `mulf64` computes the truncation (never rounding up) of the
exact product of its operands `2 ^ ex * (1 + mx / 2 ^ 64)` and
`2 ^ ey * (1 + my / 2 ^ 64)`: the result `(m', e')` is a normalized pair
with `2 ^ e' * (1 + m' / 2 ^ 64) <= X * Y < 2 ^ e' * (1 + (m' + 1) / 2 ^ 64)`;
in particular the 0-2 carry into the 65th bit is correctly detected and
folded into the exponent. -/
theorem C2_mulf64_truncates (mx my : Nat) (ex ey : Int)
    (hx : mx < 2 ^ 64) (hy : my < 2 ^ 64) :
    (mulf64 mx ex my ey).1 < 2 ^ 64 ∧
    extFloatVal (mulf64 mx ex my ey).1 (mulf64 mx ex my ey).2 ≤
      extFloatVal mx ex * extFloatVal my ey ∧
    extFloatVal mx ex * extFloatVal my ey <
      (2 : ℚ) ^ (mulf64 mx ex my ey).2 *
        (1 + (((mulf64 mx ex my ey).1 : ℚ) + 1) / 2 ^ 64) := by
  obtain ⟨hlt, d, hd1, he, hle, hgt⟩ := mulf64_core mx my ex ey hx hy
  have hzero : (2 : ℚ) ≠ 0 := by norm_num
  have hE : (2 : ℚ) ^ (mulf64 mx ex my ey).2 =
      (2 : ℚ) ^ (ex + ey) * (2 : ℚ) ^ d := by
    rw [he, zpow_add₀ hzero, zpow_natCast]
  have hc : (0 : ℚ) < (2 : ℚ) ^ (ex + ey) / 2 ^ 128 := by positivity
  have E1 : extFloatVal (mulf64 mx ex my ey).1 (mulf64 mx ex my ey).2 =
      (((2 ^ 64 + (mulf64 mx ex my ey).1) * 2 ^ (64 + d) : ℕ) : ℚ) *
        ((2 : ℚ) ^ (ex + ey) / 2 ^ 128) := by
    unfold extFloatVal
    rw [hE]
    push_cast
    rw [pow_add]
    field_simp
    ring
  have E2 : extFloatVal mx ex * extFloatVal my ey =
      (((2 ^ 64 + mx) * (2 ^ 64 + my) : ℕ) : ℚ) *
        ((2 : ℚ) ^ (ex + ey) / 2 ^ 128) := by
    unfold extFloatVal
    rw [zpow_add₀ hzero]
    push_cast
    field_simp
    ring
  have E3 : (2 : ℚ) ^ (mulf64 mx ex my ey).2 *
        (1 + (((mulf64 mx ex my ey).1 : ℚ) + 1) / 2 ^ 64) =
      (((2 ^ 64 + (mulf64 mx ex my ey).1 + 1) * 2 ^ (64 + d) : ℕ) : ℚ) *
        ((2 : ℚ) ^ (ex + ey) / 2 ^ 128) := by
    rw [hE]
    push_cast
    rw [pow_add]
    field_simp
    ring
  refine ⟨hlt, ?_, ?_⟩
  · rw [E1, E2]
    exact mul_le_mul_of_nonneg_right (by exact_mod_cast hle) (le_of_lt hc)
  · rw [E2, E3]
    exact mul_lt_mul_of_pos_right (by exact_mod_cast hgt) hc

/-- Closed witness for C2 at the concrete operands
`(2 ^ 63, 0)` and `(2 ^ 63, 0)` (both denoting 1.5). -/
theorem C2_mulf64_truncates_witness :
    (mulf64 9223372036854775808 0 9223372036854775808 0).1 < 2 ^ 64 ∧
    extFloatVal (mulf64 9223372036854775808 0 9223372036854775808 0).1
        (mulf64 9223372036854775808 0 9223372036854775808 0).2 ≤
      extFloatVal 9223372036854775808 0 * extFloatVal 9223372036854775808 0 ∧
    extFloatVal 9223372036854775808 0 * extFloatVal 9223372036854775808 0 <
      (2 : ℚ) ^ (mulf64 9223372036854775808 0 9223372036854775808 0).2 *
        (1 + (((mulf64 9223372036854775808 0 9223372036854775808 0).1 : ℚ) + 1) / 2 ^ 64) :=
  C2_mulf64_truncates 9223372036854775808 9223372036854775808 0 0
    (by norm_num) (by norm_num)

/-! ### Claim C1: IEEE-754 decoding and the nearest-double specification -/

/-- The exact rational value of a finite IEEE-754 double given by its
64-bit pattern (sign bit 63, 11 exponent bits, 52 fraction bits;
exponent field 0 is subnormal). -/
def decodeQ (b : Nat) : ℚ :=
  let sign : ℚ := if b / 2 ^ 63 % 2 = 1 then -1 else 1
  let e : Nat := b / 2 ^ 52 % 2 ^ 11
  let f : Nat := b % 2 ^ 52
  if e = 0 then sign * (f : ℚ) * (2 : ℚ) ^ (-1074 : Int)
  else sign * ((2 ^ 52 + f : Nat) : ℚ) * (2 : ℚ) ^ ((e : Int) - 1075)

/-- A 64-bit pattern encoding a finite double (exponent field not
all-ones). -/
def FiniteD (b : Nat) : Prop := b < 2 ^ 64 ∧ b / 2 ^ 52 % 2 ^ 11 ≠ 2047

/-- `b` is the IEEE-754 double nearest to `v`, with ties at the 52-bit
boundary resolved to the even significand (the IEEE-754 default rule,
round-to-nearest ties-to-even): no finite double is closer, and if a
distinct finite double is equally close then `b`'s significand is even. -/
def NearestTE (v : ℚ) (b : Nat) : Prop :=
  FiniteD b ∧
  (∀ c, FiniteD c → |decodeQ b - v| ≤ |decodeQ c - v|) ∧
  (∀ c, FiniteD c → c ≠ b → |decodeQ c - v| = |decodeQ b - v| → b % 2 = 0)

/-- Claim C1, counterexample: the 16-digit literal `9007199254740995`
denotes the exact tie `2 ^ 53 + 3`, halfway between the doubles
`2 ^ 53 + 2` (odd significand) and `2 ^ 53 + 4` (even significand).
Ties-to-even requires the latter, but `parse_double` truncates the exact
half and returns the former, so its result is not the nearest-ties-to-even
double of the literal's value. -/
theorem C1_counterexample :
    (parse_double status0 litTie).status.failed = false ∧
    (parse_double status0 litTie).bits = 0x4340000000000001 ∧
    ¬ NearestTE (9007199254740995 : ℚ) (parse_double status0 litTie).bits := by
  have hb : (parse_double status0 litTie).bits = 0x4340000000000001 := by decide
  refine ⟨by decide, hb, ?_⟩
  rw [hb]
  rintro ⟨-, -, htie⟩
  have h1 : decodeQ 0x4340000000000002 = 9007199254740996 := by
    norm_num [decodeQ]
  have h2 : decodeQ 0x4340000000000001 = 9007199254740994 := by
    norm_num [decodeQ]
  have hodd := htie 0x4340000000000002 ⟨by norm_num, by norm_num⟩ (by norm_num)
    (by
      rw [h1, h2, show (9007199254740996 : ℚ) - 9007199254740995 = 1 by norm_num,
        show (9007199254740994 : ℚ) - 9007199254740995 = -1 by norm_num, abs_neg])
  norm_num at hodd

/-! ### Bit-level facts for the normalisation cascade -/

/-- Masking with a mask shifted left by `b` bits tests the quotient. -/
theorem land_mul_two_pow_eq_zero (b : Nat) : ∀ (m M : Nat),
    (m &&& M * 2 ^ b = 0) ↔ m / 2 ^ b &&& M = 0 := by
  induction b with
  | zero => intro m M; simp
  | succ b ih =>
    intro m M
    have heven : M * 2 ^ (b + 1) % 2 = 0 := by
      rw [pow_succ, ← mul_assoc]
      exact Nat.mul_mod_left _ 2
    have hm2 : (m &&& M * 2 ^ (b + 1)) % 2 = 0 := by
      by_contra hne
      have h1 : (m &&& M * 2 ^ (b + 1)) % 2 = 1 := by omega
      rw [Nat.and_mod_two_eq_one] at h1
      omega
    have hdiv : (m &&& M * 2 ^ (b + 1)) / 2 = m / 2 &&& M * 2 ^ b := by
      rw [Nat.and_div_two]
      congr 1
      rw [pow_succ, ← mul_assoc, Nat.mul_div_cancel _ two_pos]
    constructor
    · intro h0
      have h2 : (m &&& M * 2 ^ (b + 1)) / 2 = 0 := by omega
      rw [hdiv] at h2
      have h3 := (ih (m / 2) M).mp h2
      rwa [Nat.div_div_eq_div_mul, ← pow_succ'] at h3
    · intro h0
      have h1 : m / 2 &&& M * 2 ^ b = 0 := by
        refine (ih (m / 2) M).mpr ?_
        rwa [Nat.div_div_eq_div_mul, ← pow_succ']
      rw [← hdiv] at h1
      omega

/-- For a value below `2 ^ 64`, masking with the top `64 - b` bits is zero
exactly when the value is below `2 ^ b`. -/
theorem land_top_mask {m : Nat} (b : Nat) (hb : b ≤ 64) (hm : m < 2 ^ 64) :
    (m &&& (2 ^ 64 - 2 ^ b) = 0) ↔ m < 2 ^ b := by
  have hmask : 2 ^ 64 - 2 ^ b = (2 ^ (64 - b) - 1) * 2 ^ b := by
    rw [Nat.sub_one_mul, ← pow_add]
    congr 2
    omega
  rw [hmask, land_mul_two_pow_eq_zero, Nat.and_pow_two_sub_one_eq_mod]
  have hdivlt : m / 2 ^ b < 2 ^ (64 - b) := by
    apply Nat.div_lt_of_lt_mul
    rw [← pow_add]
    exact lt_of_lt_of_le hm (Nat.pow_le_pow_right (by norm_num) (by omega))
  rw [Nat.mod_eq_of_lt hdivlt]
  rw [Nat.div_eq_zero_iff (Nat.pos_pow_of_pos b (by norm_num))]

/-- Tail of the normalisation cascade after the 2-bit step: the final
conditional 1-bit shift and the closing shift that drops the leading bit. -/
def normFin (p : Nat × Int) : Nat × Int :=
  let p := if p.1 &&& 0x8000000000000000 = 0 then (p.1 <<< 1, p.2 - 1) else p
  ((p.1 <<< 1) % 2 ^ 64, p.2)

/-- Tail of the normalisation cascade from the 2-bit step on. -/
def normT2 (p : Nat × Int) : Nat × Int :=
  normFin (if p.1 &&& 0xc000000000000000 = 0 then (p.1 <<< 2, p.2 - 2) else p)

/-- Tail of the normalisation cascade from the 4-bit step on. -/
def normT4 (p : Nat × Int) : Nat × Int :=
  normT2 (if p.1 &&& 0xf000000000000000 = 0 then (p.1 <<< 4, p.2 - 4) else p)

/-- Tail of the normalisation cascade from the 8-bit step on. -/
def normT8 (p : Nat × Int) : Nat × Int :=
  normT4 (if p.1 &&& 0xff00000000000000 = 0 then (p.1 <<< 8, p.2 - 8) else p)

/-- Tail of the normalisation cascade from the 16-bit step on. -/
def normT16 (p : Nat × Int) : Nat × Int :=
  normT8 (if p.1 &&& 0xffff000000000000 = 0 then (p.1 <<< 16, p.2 - 16) else p)

/-- `normalize_mantissa` is the 32-bit step followed by the tail. -/
theorem normalize_mantissa_decompose (m : Nat) :
    normalize_mantissa m =
      normT16 (if m &&& 0xffffffff00000000 = 0 then (m <<< 32, (63 : Int) - 32)
        else (m, 63)) := rfl

theorem normFin_eq {m : Nat} {e : Int} {j : Nat} (h1 : 2 ^ j ≤ m)
    (h2 : m < 2 ^ (j + 1)) (hlo : 62 ≤ j) (hj : j ≤ 63) :
    normFin (m, e) = ((m * 2 ^ (63 - j) * 2) % 2 ^ 64, e - ((63 - j : Nat) : Int)) := by
  have hm64 : m < 2 ^ 64 :=
    lt_of_lt_of_le h2 (Nat.pow_le_pow_right (by norm_num) (by omega))
  have hmask : (0x8000000000000000 : Nat) = 2 ^ 64 - 2 ^ 63 := by norm_num
  unfold normFin
  dsimp only
  by_cases hcj : j ≤ 62
  · have hj62 : j = 62 := by omega
    have hc : m &&& 0x8000000000000000 = 0 := by
      rw [hmask]
      exact (land_top_mask 63 (by norm_num) hm64).mpr
        (lt_of_lt_of_le h2 (Nat.pow_le_pow_right (by norm_num) (by omega)))
    rw [if_pos hc]
    subst hj62
    simp only [Nat.shiftLeft_eq]
    norm_num [Prod.mk.injEq]
  · have hj63 : j = 63 := by omega
    subst hj63
    have hc : ¬ m &&& 0x8000000000000000 = 0 := by
      rw [hmask]
      intro hz
      exact absurd ((land_top_mask 63 (by norm_num) hm64).mp hz) (not_lt.mpr h1)
    rw [if_neg hc]
    simp only [Nat.shiftLeft_eq]
    norm_num [Prod.mk.injEq]

theorem normT2_eq {m : Nat} {e : Int} {j : Nat} (h1 : 2 ^ j ≤ m)
    (h2 : m < 2 ^ (j + 1)) (hlo : 60 ≤ j) (hj : j ≤ 63) :
    normT2 (m, e) = ((m * 2 ^ (63 - j) * 2) % 2 ^ 64, e - ((63 - j : Nat) : Int)) := by
  have hm64 : m < 2 ^ 64 :=
    lt_of_lt_of_le h2 (Nat.pow_le_pow_right (by norm_num) (by omega))
  have hmask : (0xc000000000000000 : Nat) = 2 ^ 64 - 2 ^ 62 := by norm_num
  unfold normT2
  dsimp only
  by_cases hcj : j ≤ 61
  · have hc : m &&& 0xc000000000000000 = 0 := by
      rw [hmask]
      exact (land_top_mask 62 (by norm_num) hm64).mpr
        (lt_of_lt_of_le h2 (Nat.pow_le_pow_right (by norm_num) (by omega)))
    rw [if_pos hc, Nat.shiftLeft_eq]
    have hb1 : 2 ^ (j + 2) ≤ m * 2 ^ 2 := by
      rw [pow_add]
      exact Nat.mul_le_mul_right _ h1
    have hb2 : m * 2 ^ 2 < 2 ^ (j + 2 + 1) := by
      have hp : (2 : Nat) ^ (j + 2 + 1) = 2 ^ (j + 1) * 2 ^ 2 := by
        rw [← pow_add]
      rw [hp]
      exact (Nat.mul_lt_mul_right (by norm_num)).mpr h2
    rw [normFin_eq hb1 hb2 (by omega) (by omega)]
    congr 1
    · have hpow : (2 : Nat) + (63 - (j + 2)) = 63 - j := by omega
      rw [mul_assoc m, ← pow_add, hpow]
    · omega
  · have hge : 2 ^ 62 ≤ m :=
      le_trans (Nat.pow_le_pow_right (by norm_num) (by omega)) h1
    have hc : ¬ m &&& 0xc000000000000000 = 0 := by
      rw [hmask]
      intro hz
      exact absurd ((land_top_mask 62 (by norm_num) hm64).mp hz) (not_lt.mpr hge)
    rw [if_neg hc]
    exact normFin_eq h1 h2 (by omega) hj

theorem normT4_eq {m : Nat} {e : Int} {j : Nat} (h1 : 2 ^ j ≤ m)
    (h2 : m < 2 ^ (j + 1)) (hlo : 56 ≤ j) (hj : j ≤ 63) :
    normT4 (m, e) = ((m * 2 ^ (63 - j) * 2) % 2 ^ 64, e - ((63 - j : Nat) : Int)) := by
  have hm64 : m < 2 ^ 64 :=
    lt_of_lt_of_le h2 (Nat.pow_le_pow_right (by norm_num) (by omega))
  have hmask : (0xf000000000000000 : Nat) = 2 ^ 64 - 2 ^ 60 := by norm_num
  unfold normT4
  dsimp only
  by_cases hcj : j ≤ 59
  · have hc : m &&& 0xf000000000000000 = 0 := by
      rw [hmask]
      exact (land_top_mask 60 (by norm_num) hm64).mpr
        (lt_of_lt_of_le h2 (Nat.pow_le_pow_right (by norm_num) (by omega)))
    rw [if_pos hc, Nat.shiftLeft_eq]
    have hb1 : 2 ^ (j + 4) ≤ m * 2 ^ 4 := by
      rw [pow_add]
      exact Nat.mul_le_mul_right _ h1
    have hb2 : m * 2 ^ 4 < 2 ^ (j + 4 + 1) := by
      have hp : (2 : Nat) ^ (j + 4 + 1) = 2 ^ (j + 1) * 2 ^ 4 := by
        rw [← pow_add]
      rw [hp]
      exact (Nat.mul_lt_mul_right (by norm_num)).mpr h2
    rw [normT2_eq hb1 hb2 (by omega) (by omega)]
    congr 1
    · have hpow : (4 : Nat) + (63 - (j + 4)) = 63 - j := by omega
      rw [mul_assoc m, ← pow_add, hpow]
    · omega
  · have hge : 2 ^ 60 ≤ m :=
      le_trans (Nat.pow_le_pow_right (by norm_num) (by omega)) h1
    have hc : ¬ m &&& 0xf000000000000000 = 0 := by
      rw [hmask]
      intro hz
      exact absurd ((land_top_mask 60 (by norm_num) hm64).mp hz) (not_lt.mpr hge)
    rw [if_neg hc]
    exact normT2_eq h1 h2 (by omega) hj

theorem normT8_eq {m : Nat} {e : Int} {j : Nat} (h1 : 2 ^ j ≤ m)
    (h2 : m < 2 ^ (j + 1)) (hlo : 48 ≤ j) (hj : j ≤ 63) :
    normT8 (m, e) = ((m * 2 ^ (63 - j) * 2) % 2 ^ 64, e - ((63 - j : Nat) : Int)) := by
  have hm64 : m < 2 ^ 64 :=
    lt_of_lt_of_le h2 (Nat.pow_le_pow_right (by norm_num) (by omega))
  have hmask : (0xff00000000000000 : Nat) = 2 ^ 64 - 2 ^ 56 := by norm_num
  unfold normT8
  dsimp only
  by_cases hcj : j ≤ 55
  · have hc : m &&& 0xff00000000000000 = 0 := by
      rw [hmask]
      exact (land_top_mask 56 (by norm_num) hm64).mpr
        (lt_of_lt_of_le h2 (Nat.pow_le_pow_right (by norm_num) (by omega)))
    rw [if_pos hc, Nat.shiftLeft_eq]
    have hb1 : 2 ^ (j + 8) ≤ m * 2 ^ 8 := by
      rw [pow_add]
      exact Nat.mul_le_mul_right _ h1
    have hb2 : m * 2 ^ 8 < 2 ^ (j + 8 + 1) := by
      have hp : (2 : Nat) ^ (j + 8 + 1) = 2 ^ (j + 1) * 2 ^ 8 := by
        rw [← pow_add]
      rw [hp]
      exact (Nat.mul_lt_mul_right (by norm_num)).mpr h2
    rw [normT4_eq hb1 hb2 (by omega) (by omega)]
    congr 1
    · have hpow : (8 : Nat) + (63 - (j + 8)) = 63 - j := by omega
      rw [mul_assoc m, ← pow_add, hpow]
    · omega
  · have hge : 2 ^ 56 ≤ m :=
      le_trans (Nat.pow_le_pow_right (by norm_num) (by omega)) h1
    have hc : ¬ m &&& 0xff00000000000000 = 0 := by
      rw [hmask]
      intro hz
      exact absurd ((land_top_mask 56 (by norm_num) hm64).mp hz) (not_lt.mpr hge)
    rw [if_neg hc]
    exact normT4_eq h1 h2 (by omega) hj

theorem normT16_eq {m : Nat} {e : Int} {j : Nat} (h1 : 2 ^ j ≤ m)
    (h2 : m < 2 ^ (j + 1)) (hlo : 32 ≤ j) (hj : j ≤ 63) :
    normT16 (m, e) = ((m * 2 ^ (63 - j) * 2) % 2 ^ 64, e - ((63 - j : Nat) : Int)) := by
  have hm64 : m < 2 ^ 64 :=
    lt_of_lt_of_le h2 (Nat.pow_le_pow_right (by norm_num) (by omega))
  have hmask : (0xffff000000000000 : Nat) = 2 ^ 64 - 2 ^ 48 := by norm_num
  unfold normT16
  dsimp only
  by_cases hcj : j ≤ 47
  · have hc : m &&& 0xffff000000000000 = 0 := by
      rw [hmask]
      exact (land_top_mask 48 (by norm_num) hm64).mpr
        (lt_of_lt_of_le h2 (Nat.pow_le_pow_right (by norm_num) (by omega)))
    rw [if_pos hc, Nat.shiftLeft_eq]
    have hb1 : 2 ^ (j + 16) ≤ m * 2 ^ 16 := by
      rw [pow_add]
      exact Nat.mul_le_mul_right _ h1
    have hb2 : m * 2 ^ 16 < 2 ^ (j + 16 + 1) := by
      have hp : (2 : Nat) ^ (j + 16 + 1) = 2 ^ (j + 1) * 2 ^ 16 := by
        rw [← pow_add]
      rw [hp]
      exact (Nat.mul_lt_mul_right (by norm_num)).mpr h2
    rw [normT8_eq hb1 hb2 (by omega) (by omega)]
    congr 1
    · have hpow : (16 : Nat) + (63 - (j + 16)) = 63 - j := by omega
      rw [mul_assoc m, ← pow_add, hpow]
    · omega
  · have hge : 2 ^ 48 ≤ m :=
      le_trans (Nat.pow_le_pow_right (by norm_num) (by omega)) h1
    have hc : ¬ m &&& 0xffff000000000000 = 0 := by
      rw [hmask]
      intro hz
      exact absurd ((land_top_mask 48 (by norm_num) hm64).mp hz) (not_lt.mpr hge)
    rw [if_neg hc]
    exact normT8_eq h1 h2 (by omega) hj

/-- The normalisation cascade (parse_double.cpp:456-463): for
`2 ^ k <= m < 2 ^ (k + 1)` it shifts the leading bit to position 63, then
out, leaving `(m * 2 ^ (64 - k)) mod 2 ^ 64` and binary exponent `k`. -/
theorem normalize_mantissa_eq {m k : Nat} (h1 : 2 ^ k ≤ m) (h2 : m < 2 ^ (k + 1))
    (hk : k ≤ 63) :
    normalize_mantissa m = ((m * 2 ^ (63 - k) * 2) % 2 ^ 64, (k : Int)) := by
  have hm64 : m < 2 ^ 64 :=
    lt_of_lt_of_le h2 (Nat.pow_le_pow_right (by norm_num) (by omega))
  have hmask : (0xffffffff00000000 : Nat) = 2 ^ 64 - 2 ^ 32 := by norm_num
  rw [normalize_mantissa_decompose]
  by_cases hcj : k ≤ 31
  · have hc : m &&& 0xffffffff00000000 = 0 := by
      rw [hmask]
      exact (land_top_mask 32 (by norm_num) hm64).mpr
        (lt_of_lt_of_le h2 (Nat.pow_le_pow_right (by norm_num) (by omega)))
    rw [if_pos hc, Nat.shiftLeft_eq]
    have hb1 : 2 ^ (k + 32) ≤ m * 2 ^ 32 := by
      rw [pow_add]
      exact Nat.mul_le_mul_right _ h1
    have hb2 : m * 2 ^ 32 < 2 ^ (k + 32 + 1) := by
      have hp : (2 : Nat) ^ (k + 32 + 1) = 2 ^ (k + 1) * 2 ^ 32 := by
        rw [← pow_add]
      rw [hp]
      exact (Nat.mul_lt_mul_right (by norm_num)).mpr h2
    rw [normT16_eq hb1 hb2 (by omega) (by omega)]
    congr 1
    · have hpow : (32 : Nat) + (63 - (k + 32)) = 63 - k := by omega
      rw [mul_assoc m, ← pow_add, hpow]
    · omega
  · have hge : 2 ^ 32 ≤ m :=
      le_trans (Nat.pow_le_pow_right (by norm_num) (by omega)) h1
    have hc : ¬ m &&& 0xffffffff00000000 = 0 := by
      rw [hmask]
      intro hz
      exact absurd ((land_top_mask 32 (by norm_num) hm64).mp hz) (not_lt.mpr hge)
    rw [if_neg hc]
    rw [normT16_eq h1 h2 (by omega) hk]
    congr 1 <;> first | rfl | omega

/-! ### Claim C1 (amended): exact scanning of short integer literals -/

/-- The decimal value of a list of ASCII digit bytes folded onto an
accumulator, exactly as the scanner's `mantissa = 10*mantissa + digit`. -/
def digitsAcc (a : Nat) (ds : List Nat) : Nat :=
  ds.foldl (fun x c => 10 * x + (c - 48)) a

/-- The decimal value denoted by a list of ASCII digit bytes. -/
def digitsVal (ds : List Nat) : Nat := digitsAcc 0 ds

theorem digitsAcc_cons (a c : Nat) (ds : List Nat) :
    digitsAcc a (c :: ds) = digitsAcc (10 * a + (c - 48)) ds := rfl

/-- On a stream of ASCII digit bytes, with at most 19 digits in total, the
main loop accumulates the exact decimal value: the per-digit overflow
guard never fires, no wrap occurs, and the stream is consumed entirely. -/
theorem main_loop_int_digits : ∀ (ds : List Nat) (sc : ScanState) (st : Status),
    (∀ d ∈ ds, 48 ≤ d ∧ d ≤ 57) →
    sc.fractional_digits = -1 → sc.decimal_exponent = 0 →
    sc.mantissa < 10 ^ sc.digits →
    sc.digits + ds.length ≤ 19 →
    sc.significant_digits ≤ sc.digits →
    (sc.significant_digits = 0 ↔ sc.mantissa = 0) →
    ∃ sd1 : Nat,
      main_loop sc st ds =
        .done { negative := sc.negative, mantissa := digitsAcc sc.mantissa ds,
                digits := sc.digits + ds.length, significant_digits := sd1,
                fractional_digits := -1, decimal_exponent := 0 } st [] ∧
      sd1 ≤ sc.digits + ds.length ∧ (sd1 = 0 ↔ digitsAcc sc.mantissa ds = 0) := by
  intro ds
  induction ds with
  | nil =>
    intro sc st hds hfd hde hm hlen hsd hiff
    obtain ⟨n, m, d, sd, fd, de⟩ := sc
    dsimp only at hfd hde hm hlen hsd hiff ⊢
    subst hfd hde
    exact ⟨sd, by rw [main_loop]; rfl, hsd, hiff⟩
  | cons ch rest ih =>
    intro sc st hds hfd hde hm hlen hsd hiff
    obtain ⟨n, m, d, sd, fd, de⟩ := sc
    dsimp only at hfd hde hm hlen hsd hiff ⊢
    subst hfd hde
    obtain ⟨hch1, hch2⟩ := hds ch (List.mem_cons_self ch rest)
    have hrest : ∀ x ∈ rest, 48 ≤ x ∧ x ≤ 57 :=
      fun x hx => hds x (List.mem_cons_of_mem ch hx)
    have hdvle : u64sub ch 48 ≤ 9 := (u64sub_digit_iff (by omega)).mpr ⟨hch1, hch2⟩
    have hdv : u64sub ch 48 = ch - 48 := u64sub_digit_val hch1 (by omega)
    have hlen1 : d + rest.length ≤ 18 := by
      rw [List.length_cons] at hlen
      omega
    have hm18 : m ≤ 10 ^ 18 - 1 := by
      have h10 : (10 : Nat) ^ d ≤ 10 ^ 18 := Nat.pow_le_pow_right (by norm_num) (by omega)
      omega
    have hguard : ¬ m > 1844674407370955161 - (if 6 ≤ ch - 48 then 1 else 0) := by
      split_ifs <;> norm_num at hm18 ⊢ <;> omega
    have hmod : (10 * m + (ch - 48)) % 2 ^ 64 = 10 * m + (ch - 48) := by
      rw [two_pow_64_eq]
      norm_num at hm18
      omega
    have hstep : digit_step ⟨n, m, d, sd, -1, 0⟩ (u64sub ch 48) =
        ⟨n, 10 * m + (ch - 48), d + 1,
          if ch - 48 ≠ 0 ∨ sd ≠ 0 then sd + 1 else sd, -1, 0⟩ := by
      rw [hdv]
      simp only [digit_step]
      rw [if_neg hguard, hmod]
      norm_num
    have hmb : 10 * m + (ch - 48) < 10 ^ (d + 1) := by
      rw [pow_succ]
      omega
    have hsdb : (if ch - 48 ≠ 0 ∨ sd ≠ 0 then sd + 1 else sd) ≤ d + 1 := by
      split_ifs <;> omega
    have hiffb : ((if ch - 48 ≠ 0 ∨ sd ≠ 0 then sd + 1 else sd) = 0 ↔
        10 * m + (ch - 48) = 0) := by
      split_ifs with h
      · have hne : 10 * m + (ch - 48) ≠ 0 := by
          rcases h with h | h
          · omega
          · have hm0 : m ≠ 0 := fun e => h (hiff.mpr e)
            omega
        simp [hne]
      · push_neg at h
        obtain ⟨h1, h2⟩ := h
        have hm0 := hiff.mp h2
        simp [h1, h2, hm0]
    obtain ⟨sd1, heq, hle, hiff2⟩ :=
      ih ⟨n, 10 * m + (ch - 48), d + 1,
        if ch - 48 ≠ 0 ∨ sd ≠ 0 then sd + 1 else sd, -1, 0⟩ st hrest rfl rfl hmb
        (show d + 1 + rest.length ≤ 19 by rw [List.length_cons] at hlen; omega) hsdb hiffb
    have hd1 : d + (ch :: rest).length = d + 1 + rest.length := by
      rw [List.length_cons]
      omega
    refine ⟨sd1, ?_, ?_, ?_⟩
    · rw [main_loop]
      dsimp only
      rw [if_pos hdvle, hstep]
      rw [if_neg (by dsimp only; split_ifs <;> omega)]
      rw [digitsAcc_cons, hd1]
      exact heq
    · rw [List.length_cons]
      dsimp only at hle
      omega
    · rw [digitsAcc_cons]
      exact hiff2

/-- Entering `parse_double` on a pure digit string of length 1-19:
`parse_start` dispatches the first digit and the main loop consumes the
rest, yielding the exact decimal value without any failure. -/
theorem parse_start_int_digits (ch : Nat) (rest : List Nat) (st : Status)
    (hds : ∀ d ∈ ch :: rest, 48 ≤ d ∧ d ≤ 57)
    (h19 : (ch :: rest).length ≤ 19) :
    ∃ sd1 : Nat,
      parse_start st (ch :: rest) =
        .done ⟨false, digitsVal (ch :: rest), (ch :: rest).length, sd1, -1, 0⟩ st [] ∧
      sd1 ≤ (ch :: rest).length ∧ (sd1 = 0 ↔ digitsVal (ch :: rest) = 0) := by
  obtain ⟨hch1, hch2⟩ := hds ch (List.mem_cons_self ch rest)
  have hrest : ∀ x ∈ rest, 48 ≤ x ∧ x ≤ 57 :=
    fun x hx => hds x (List.mem_cons_of_mem ch hx)
  have hlenr : rest.length ≤ 18 := by
    rw [List.length_cons] at h19
    omega
  have hval : digitsVal (ch :: rest) = digitsAcc (ch - 48) rest := by
    show digitsAcc 0 (ch :: rest) = digitsAcc (ch - 48) rest
    rw [digitsAcc_cons]
    congr 1
    omega
  have hlen2 : (ch :: rest).length = 1 + rest.length := by
    rw [List.length_cons]
    omega
  rw [parse_start]
  dsimp only
  rw [if_neg (by omega : ¬ ch = 45), if_neg (by omega : ¬ ch = 43)]
  by_cases h48 : ch = 48
  · rw [if_pos h48]
    obtain ⟨sd1, heq, hle, hiff2⟩ :=
      main_loop_int_digits rest ⟨false, 0, 1, 0, -1, 0⟩ st hrest rfl rfl
        (show (0 : Nat) < 10 ^ 1 by norm_num)
        (show 1 + rest.length ≤ 19 by omega)
        (show (0 : Nat) ≤ 1 by norm_num)
        (show ((0 : Nat) = 0 ↔ (0 : Nat) = 0) from Iff.rfl)
    have hle2 : sd1 ≤ 1 + rest.length := hle
    have hiff3 : (sd1 = 0 ↔ digitsAcc 0 rest = 0) := hiff2
    have h0 : digitsAcc (ch - 48) rest = digitsAcc 0 rest := by
      congr 1
      omega
    refine ⟨sd1, ?_, ?_, ?_⟩
    · rw [hval, hlen2, h0]
      exact heq
    · omega
    · rw [hval, h0]
      exact hiff3
  · rw [if_neg h48, if_pos (show 49 ≤ ch ∧ ch ≤ 57 by omega)]
    obtain ⟨sd1, heq, hle, hiff2⟩ :=
      main_loop_int_digits rest ⟨false, ch - 48, 1, 1, -1, 0⟩ st hrest rfl rfl
        (show ch - 48 < 10 ^ 1 by rw [pow_one]; omega)
        (show 1 + rest.length ≤ 19 by omega)
        (show (1 : Nat) ≤ 1 from le_refl 1)
        (show (1 = 0 ↔ ch - 48 = 0) by omega)
    have hle2 : sd1 ≤ 1 + rest.length := hle
    have hiff3 : (sd1 = 0 ↔ digitsAcc (ch - 48) rest = 0) := hiff2
    refine ⟨sd1, ?_, ?_, ?_⟩
    · rw [hval, hlen2]
      exact heq
    · omega
    · rw [hval]
      exact hiff3

/-- Bitwise OR with a multiple of `2 ^ n` is plain addition when the other
operand fits in the low `n` bits. -/
theorem lor_mul_two_pow : ∀ (n a b : Nat), a < 2 ^ n → a ||| b * 2 ^ n = b * 2 ^ n + a := by
  intro n
  induction n with
  | zero =>
    intro a b ha
    rw [pow_zero] at ha
    have ha0 : a = 0 := by omega
    subst ha0
    simp
  | succ n ih =>
    intro a b ha
    have hdiv : (a ||| b * 2 ^ (n + 1)) / 2 = a / 2 ||| b * 2 ^ n := by
      rw [Nat.or_div_two]
      congr 1
      rw [pow_succ, ← mul_assoc]
      omega
    have hb2 : b * 2 ^ (n + 1) % 2 = 0 := by
      rw [pow_succ, ← mul_assoc]
      omega
    have hmod : (a ||| b * 2 ^ (n + 1)) % 2 = a % 2 := by
      by_cases hae : a % 2 = 1
      · have h1 := (@Nat.or_mod_two_eq_one a (b * 2 ^ (n + 1))).mpr (Or.inl hae)
        omega
      · have h2 : ¬ (a ||| b * 2 ^ (n + 1)) % 2 = 1 := by
          intro h
          rcases Nat.or_mod_two_eq_one.mp h with h | h
          · exact hae h
          · omega
        have h3 := Nat.mod_two_eq_zero_or_one (a ||| b * 2 ^ (n + 1))
        omega
    have h3 : a / 2 < 2 ^ n := by
      rw [pow_succ] at ha
      omega
    have hih := ih (a / 2) b h3
    have hx := Nat.div_add_mod (a ||| b * 2 ^ (n + 1)) 2
    rw [hdiv, hmod, hih] at hx
    have hbb : b * 2 ^ (n + 1) = 2 * (b * 2 ^ n) := by
      rw [pow_succ]
      ring
    omega

/-- `round_and_assemble` in closed arithmetic form, for a positive sign
and a nonnegative binary exponent at most 1022. -/
theorem round_and_assemble_eq (st : Status) (m : Nat) (e : Int) (hm : m < 2 ^ 64)
    (he : 0 ≤ e) (he2 : e ≤ 1022) :
    round_and_assemble false st m e [] =
      ⟨st,
        if 2 ^ 11 < m % 2 ^ 12 then
          (if 2 ^ 64 ≤ m + 2 ^ 11 then
            (e.toNat + 1 + 1023) * 2 ^ 52 + (m + 2 ^ 11 - 2 ^ 64) / 2 ^ 13
           else (e.toNat + 1023) * 2 ^ 52 + (m + 2 ^ 11) / 2 ^ 12)
        else (e.toNat + 1023) * 2 ^ 52 + m / 2 ^ 12, []⟩ := by
  have h52 : (2 : Nat) ^ 52 = 4503599627370496 := by norm_num
  have hand : m &&& 0xFFF = m % 2 ^ 12 := by
    rw [show (0xFFF : Nat) = 2 ^ 12 - 1 by norm_num, Nat.and_pow_two_sub_one_eq_mod]
  have htoU : toU64 (e + 1023) = e.toNat + 1023 := by
    unfold toU64
    rw [show ((2 : Int) ^ 64) = 18446744073709551616 by norm_num]
    omega
  have htoU1 : toU64 (e + 1 + 1023) = e.toNat + 1 + 1023 := by
    unfold toU64
    rw [show ((2 : Int) ^ 64) = 18446744073709551616 by norm_num]
    omega
  have hfield : (e.toNat + 1023) * 2 ^ 52 < 2 ^ 64 := by
    have hle : e.toNat ≤ 1022 := by omega
    rw [h52, two_pow_64_eq]
    omega
  have hfield1 : (e.toNat + 1 + 1023) * 2 ^ 52 < 2 ^ 64 := by
    have hle : e.toNat ≤ 1022 := by omega
    rw [h52, two_pow_64_eq]
    omega
  have hnotbig : ¬ (e > 1023) := by omega
  have hnotbig1 : ¬ (e + 1 > 1023) := by omega
  simp only [round_and_assemble]
  rw [hand, show (0x800 : Nat) = 2 ^ 11 by norm_num]
  by_cases hc : 2 ^ 11 < m % 2 ^ 12
  · rw [if_pos hc, if_pos hc]
    by_cases hw : 2 ^ 64 ≤ m + 2 ^ 11
    · rw [if_pos hw]
      have hm1 : (m + 2 ^ 11) % 2 ^ 64 = m + 2 ^ 11 - 2 ^ 64 := by
        rw [two_pow_64_eq] at hw hm ⊢
        omega
      rw [hm1]
      have hlt : m + 2 ^ 11 - 2 ^ 64 < 2 ^ 11 := by
        rw [two_pow_64_eq] at hm hw ⊢
        omega
      rw [if_pos hlt]
      dsimp only
      rw [if_neg hnotbig1]
      rw [Nat.shiftRight_eq_div_pow, Nat.shiftLeft_eq, htoU1, Nat.mod_eq_of_lt hfield1]
      rw [lor_mul_two_pow 52 _ _ (by
        apply Nat.div_lt_of_lt_mul
        rw [show (2 ^ 12 * 2 ^ 52 : Nat) = 2 ^ 64 by norm_num]
        rw [two_pow_64_eq] at hm ⊢
        omega)]
      rw [Nat.div_div_eq_div_mul, show (2 * 2 ^ 12 : Nat) = 2 ^ 13 by norm_num]
      simp
    · rw [if_neg hw]
      have hm1 : (m + 2 ^ 11) % 2 ^ 64 = m + 2 ^ 11 := by
        rw [two_pow_64_eq] at hw ⊢
        omega
      rw [hm1]
      have hge : ¬ (m + 2 ^ 11 < 2 ^ 11) := by omega
      rw [if_neg hge]
      dsimp only
      rw [if_neg hnotbig]
      rw [Nat.shiftRight_eq_div_pow, Nat.shiftLeft_eq, htoU, Nat.mod_eq_of_lt hfield]
      rw [lor_mul_two_pow 52 _ _ (by
        apply Nat.div_lt_of_lt_mul
        rw [show (2 ^ 12 * 2 ^ 52 : Nat) = 2 ^ 64 by norm_num]
        rw [two_pow_64_eq] at hw ⊢
        omega)]
      simp
  · rw [if_neg hc, if_neg hc]
    dsimp only
    rw [if_neg hnotbig]
    rw [Nat.shiftRight_eq_div_pow, Nat.shiftLeft_eq, htoU, Nat.mod_eq_of_lt hfield]
    rw [lor_mul_two_pow 52 _ _ (by
      apply Nat.div_lt_of_lt_mul
      rw [show (2 ^ 12 * 2 ^ 52 : Nat) = 2 ^ 64 by norm_num]
      rw [two_pow_64_eq] at hm ⊢
      omega)]
    simp

/-- Round a positive integer to a 53-bit significand, nearest with ties
toward zero, and assemble the IEEE-754 bit pattern.  This is the
spec-side description of the amended rounding rule, written from the
amended claim text, independently of the code path. -/
def specRoundTiesDown (v : Nat) : Nat :=
  let k : Nat := Nat.log2 v
  if k ≤ 52 then (k + 1023) * 2 ^ 52 + (v - 2 ^ k) * 2 ^ (52 - k)
  else
    let q : Nat := v / 2 ^ (k - 52)
    let q1 : Nat := if 2 ^ (k - 52 - 1) < v % 2 ^ (k - 52) then q + 1 else q
    if q1 = 2 ^ 53 then (k + 1 + 1023) * 2 ^ 52
    else (k + 1023) * 2 ^ 52 + (q1 - 2 ^ 52)

set_option maxRecDepth 2000 in
/-- After exact normalisation of an integer `v` with leading bit `k`, the
rounding/assembly step of `parse_double` computes exactly the
nearest/ties-toward-zero approximation `specRoundTiesDown v`. -/
theorem round_assemble_spec {v k : Nat} (st : Status) (h1 : 2 ^ k ≤ v)
    (h2 : v < 2 ^ (k + 1)) (h63 : k ≤ 63) :
    round_and_assemble false st ((v - 2 ^ k) * 2 ^ (64 - k)) (k : Int) [] =
      ⟨st, specRoundTiesDown v, []⟩ := by
  have hlog : Nat.log2 v = k := by
    rw [Nat.log2_eq_log_two]
    exact Nat.log_eq_of_pow_le_of_lt_pow h1 h2
  have hp : (2 : Nat) ^ (k + 1) = 2 * 2 ^ k := by
    rw [pow_succ]
    ring
  have hub : v - 2 ^ k < 2 ^ k := by omega
  have hm : (v - 2 ^ k) * 2 ^ (64 - k) < 2 ^ 64 := by
    calc (v - 2 ^ k) * 2 ^ (64 - k) < 2 ^ k * 2 ^ (64 - k) :=
          (Nat.mul_lt_mul_right (Nat.pos_pow_of_pos _ (by norm_num))).mpr hub
      _ = 2 ^ 64 := by
          rw [← pow_add]
          congr 1
          omega
  rw [round_and_assemble_eq st _ _ hm (Int.natCast_nonneg k) (by omega)]
  have htn : ((k : Int)).toNat = k := rfl
  rw [htn]
  refine congrArg (fun b => ({ status := st, bits := b, rest := [] } : PDResult)) ?_
  simp only [specRoundTiesDown, hlog]
  by_cases hk52 : k ≤ 52
  · rw [if_pos hk52]
    have hsplit : (2 : Nat) ^ (64 - k) = 2 ^ (52 - k) * 2 ^ 12 := by
      rw [← pow_add]
      congr 1
      omega
    have hmod : (v - 2 ^ k) * 2 ^ (64 - k) % 2 ^ 12 = 0 := by
      rw [hsplit, ← mul_assoc]
      exact Nat.mul_mod_left _ _
    have hdiv : (v - 2 ^ k) * 2 ^ (64 - k) / 2 ^ 12 = (v - 2 ^ k) * 2 ^ (52 - k) := by
      rw [hsplit, ← mul_assoc, show ((2 : Nat) ^ 12) = 4096 by norm_num]
      omega
    rw [if_neg (by rw [hmod]; norm_num), hdiv]
  · rw [if_neg hk52]
    have hApos : (0 : Nat) < 2 ^ (k - 52) := Nat.pos_pow_of_pos _ (by norm_num)
    have hBpos : (0 : Nat) < 2 ^ (64 - k) := Nat.pos_pow_of_pos _ (by norm_num)
    have hB : (2 : Nat) ^ (k - 52) * 2 ^ (64 - k) = 2 ^ 12 := by
      rw [← pow_add]
      congr 1
      omega
    have hH : (2 : Nat) ^ (k - 52 - 1) * 2 ^ (64 - k) = 2 ^ 11 := by
      rw [← pow_add]
      congr 1
      omega
    have h2k : (2 : Nat) ^ (k - 52) * 2 ^ 52 = 2 ^ k := by
      rw [← pow_add]
      congr 1
      omega
    have hveq : v = 2 ^ (k - 52) * 2 ^ 52 + (v - 2 ^ k) := by
      rw [h2k]
      omega
    have hvdiv : v / 2 ^ (k - 52) = 2 ^ 52 + (v - 2 ^ k) / 2 ^ (k - 52) := by
      conv_lhs => rw [hveq]
      rw [Nat.mul_add_div hApos]
    have hvmod : v % 2 ^ (k - 52) = (v - 2 ^ k) % 2 ^ (k - 52) := by
      conv_lhs => rw [hveq]
      rw [Nat.mul_add_mod]
    rw [hvdiv, hvmod]
    have hmN : (v - 2 ^ k) * 2 ^ (64 - k) =
        (v - 2 ^ k) / 2 ^ (k - 52) * 2 ^ 12 +
          (v - 2 ^ k) % 2 ^ (k - 52) * 2 ^ (64 - k) := by
      calc (v - 2 ^ k) * 2 ^ (64 - k)
          = (2 ^ (k - 52) * ((v - 2 ^ k) / 2 ^ (k - 52)) +
              (v - 2 ^ k) % 2 ^ (k - 52)) * 2 ^ (64 - k) := by
            rw [Nat.div_add_mod]
        _ = (v - 2 ^ k) / 2 ^ (k - 52) * (2 ^ (k - 52) * 2 ^ (64 - k)) +
              (v - 2 ^ k) % 2 ^ (k - 52) * 2 ^ (64 - k) := by
            ring
        _ = _ := by
            rw [hB]
    rw [hmN]
    have hwb : (v - 2 ^ k) / 2 ^ (k - 52) < 2 ^ 52 := by
      apply Nat.div_lt_of_lt_mul
      rw [h2k]
      exact hub
    have hrb : (v - 2 ^ k) % 2 ^ (k - 52) < 2 ^ (k - 52) := Nat.mod_lt _ hApos
    have htb : (v - 2 ^ k) % 2 ^ (k - 52) * 2 ^ (64 - k) < 2 ^ 12 := by
      rw [← hB]
      exact (Nat.mul_lt_mul_right hBpos).mpr hrb
    have hiff : 2 ^ 11 < (v - 2 ^ k) % 2 ^ (k - 52) * 2 ^ (64 - k) ↔
        2 ^ (k - 52 - 1) < (v - 2 ^ k) % 2 ^ (k - 52) := by
      rw [← hH]
      exact Nat.mul_lt_mul_right hBpos
    generalize hw : (v - 2 ^ k) / 2 ^ (k - 52) = w at hmN hwb ⊢
    generalize ht : (v - 2 ^ k) % 2 ^ (k - 52) * 2 ^ (64 - k) = t at htb hiff ⊢
    simp only [show ((2 : Nat) ^ 11) = 2048 by norm_num,
      show ((2 : Nat) ^ 12) = 4096 by norm_num,
      show ((2 : Nat) ^ 13) = 8192 by norm_num,
      show ((2 : Nat) ^ 52) = 4503599627370496 by norm_num,
      show ((2 : Nat) ^ 53) = 9007199254740992 by norm_num,
      show ((2 : Nat) ^ 64) = 18446744073709551616 by norm_num] at htb hiff ⊢
    have hmodt : (w * 4096 + t) % 4096 = t := by omega
    by_cases hrc : 2 ^ (k - 52 - 1) < (v - 2 ^ k) % 2 ^ (k - 52)
    · rw [if_pos hrc, if_pos (by rw [hmodt]; exact hiff.mpr hrc)]
      have ht11 : 2048 < t := hiff.mpr hrc
      by_cases hqw : w = 4503599627370495
      · rw [if_pos (by omega), if_pos (by omega)]
        omega
      · rw [if_neg (by omega), if_neg (by omega)]
        omega
    · have ht11 : ¬ 2048 < t := fun h => hrc (hiff.mp h)
      rw [if_neg hrc, if_neg (by rw [hmodt]; exact ht11)]
      rw [if_neg (by omega)]
      omega

/-- Bounding the accumulated decimal value by a power of ten. -/
theorem digitsAcc_lt : ∀ (ds : List Nat) (n a : Nat),
    (∀ d ∈ ds, d ≤ 57) → a < 10 ^ n → digitsAcc a ds < 10 ^ (n + ds.length) := by
  intro ds
  induction ds with
  | nil =>
    intro n a _ ha
    simpa using ha
  | cons c rest ih =>
    intro n a hds ha
    rw [digitsAcc_cons]
    have hc := hds c (List.mem_cons_self c rest)
    have h1 : 10 * a + (c - 48) < 10 ^ (n + 1) := by
      rw [pow_succ]
      omega
    have h2 := ih (n + 1) (10 * a + (c - 48))
      (fun d hd => hds d (List.mem_cons_of_mem c hd)) h1
    have hexp : n + (c :: rest).length = n + 1 + rest.length := by
      rw [List.length_cons]
      omega
    rw [hexp]
    exact h2

/-- `end_of_number` on the scanner state produced by a short integer
literal: the mantissa is normalised exactly, no power-of-ten correction is
applied, the subnormal branch is skipped, and rounding/assembly yields the
ties-toward-zero result. -/
theorem end_of_number_int (st : Status) (v len sd1 : Nat)
    (hv1 : 1 ≤ v) (hv2 : v < 2 ^ 64) (hlen : len ≠ 0) (hsd : sd1 ≠ 0) :
    end_of_number ⟨false, v, len, sd1, -1, 0⟩ st [] = ⟨st, specRoundTiesDown v, []⟩ := by
  have hk1 : 2 ^ Nat.log2 v ≤ v := Nat.log2_self_le (by omega)
  have hk2 : v < 2 ^ (Nat.log2 v + 1) := Nat.lt_log2_self
  have hk63 : Nat.log2 v ≤ 63 := by
    by_contra hgt
    have h64 : (2 : Nat) ^ 64 ≤ 2 ^ Nat.log2 v :=
      Nat.pow_le_pow_right (by norm_num) (by omega)
    omega
  simp only [end_of_number]
  rw [if_neg (show ¬ (⟨false, v, len, sd1, -1, 0⟩ : ScanState).digits = 0 from hlen)]
  rw [if_neg (show ¬ (⟨false, v, len, sd1, -1, 0⟩ : ScanState).significant_digits = 0 from hsd)]
  rw [if_neg (show ¬ (0 : Int) < (⟨false, v, len, sd1, -1, 0⟩ : ScanState).fractional_digits
    by norm_num)]
  rw [if_neg (show ¬ (⟨false, v, len, sd1, -1, 0⟩ : ScanState).decimal_exponent ≠ 0
    by norm_num)]
  rw [normalize_mantissa_eq hk1 hk2 hk63]
  dsimp only
  simp only [subnormal_and_round]
  rw [if_neg (show ¬ ((Nat.log2 v : Int)) ≤ -1023 by omega)]
  have hB64 : (2 : Nat) ^ Nat.log2 v * 2 ^ (64 - Nat.log2 v) = 2 ^ 64 := by
    rw [← pow_add]
    congr 1
    omega
  have hlt : (v - 2 ^ Nat.log2 v) * 2 ^ (64 - Nat.log2 v) < 2 ^ 64 := by
    calc (v - 2 ^ Nat.log2 v) * 2 ^ (64 - Nat.log2 v)
        < 2 ^ Nat.log2 v * 2 ^ (64 - Nat.log2 v) :=
          (Nat.mul_lt_mul_right (Nat.pos_pow_of_pos _ (by norm_num))).mpr (by omega)
      _ = 2 ^ 64 := hB64
  have hsplit : v * 2 ^ (63 - Nat.log2 v) * 2 =
      (v - 2 ^ Nat.log2 v) * 2 ^ (64 - Nat.log2 v) + 2 ^ 64 := by
    have h1 : v * 2 ^ (63 - Nat.log2 v) * 2 = v * 2 ^ (64 - Nat.log2 v) := by
      rw [mul_assoc, ← pow_succ]
      congr 2
      omega
    have h2 : v = (v - 2 ^ Nat.log2 v) + 2 ^ Nat.log2 v := by omega
    rw [h1, ← hB64]
    calc v * 2 ^ (64 - Nat.log2 v)
        = ((v - 2 ^ Nat.log2 v) + 2 ^ Nat.log2 v) * 2 ^ (64 - Nat.log2 v) := by rw [← h2]
      _ = (v - 2 ^ Nat.log2 v) * 2 ^ (64 - Nat.log2 v) +
            2 ^ Nat.log2 v * 2 ^ (64 - Nat.log2 v) := by ring
  have hmNval : v * 2 ^ (63 - Nat.log2 v) * 2 % 2 ^ 64 =
      (v - 2 ^ Nat.log2 v) * 2 ^ (64 - Nat.log2 v) := by
    rw [hsplit, Nat.add_mod_right, Nat.mod_eq_of_lt hlt]
  rw [hmNval]
  exact round_assemble_spec st hk1 hk2 hk63

/-- `parse_double` on a pure digit string of length 1-19 with nonzero
value: the result is exactly the assembled ties-toward-zero rounding of
the literal's decimal value, the status is untouched, and the stream is
consumed entirely. -/
theorem parse_double_int_eq (ds : List Nat) (st : Status)
    (hds : ∀ d ∈ ds, 48 ≤ d ∧ d ≤ 57) (h1 : ds ≠ []) (h19 : ds.length ≤ 19)
    (hv : 1 ≤ digitsVal ds) :
    parse_double st ds = ⟨st, specRoundTiesDown (digitsVal ds), []⟩ := by
  match ds, h1 with
  | ch :: rest, _ =>
    obtain ⟨sd1, heq, hle, hiff⟩ := parse_start_int_digits ch rest st hds h19
    have hvlt : digitsVal (ch :: rest) < 2 ^ 64 := by
      have h2 := digitsAcc_lt (ch :: rest) 0 0 (fun d hd => (hds d hd).2) (by norm_num)
      have h3 : (10 : Nat) ^ (0 + (ch :: rest).length) ≤ 10 ^ 19 :=
        Nat.pow_le_pow_right (by norm_num) (by omega)
      have h4 : (10 : Nat) ^ 19 < 2 ^ 64 := by norm_num
      exact lt_of_lt_of_le (lt_of_lt_of_le h2 h3) (le_of_lt h4)
    have hsd : sd1 ≠ 0 := by
      intro h0
      have := hiff.mp h0
      omega
    unfold parse_double
    rw [heq]
    exact end_of_number_int st (digitsVal (ch :: rest)) (ch :: rest).length sd1
      hv hvlt (by simp) hsd

/-- The finiteness of an assembled pattern with exponent field at most
2046. -/
theorem FiniteD_assemble (E f : Nat) (hE2 : E ≤ 2046) (hf : f < 2 ^ 52) :
    FiniteD (E * 2 ^ 52 + f) := by
  constructor
  · rw [show ((2:Nat) ^ 64) = 18446744073709551616 by norm_num] at *
    rw [show ((2:Nat) ^ 52) = 4503599627370496 by norm_num] at *
    omega
  · rw [show ((2:Nat) ^ 52) = 4503599627370496 by norm_num] at *
    rw [show ((2:Nat) ^ 11) = 2048 by norm_num]
    omega

/-- Decoding an assembled normal pattern with zero sign bit. -/
theorem decodeQ_assemble (E f : Nat) (hE1 : 1 ≤ E) (hE2 : E ≤ 2046) (hf : f < 2 ^ 52) :
    decodeQ (E * 2 ^ 52 + f) = ((2 ^ 52 + f : Nat) : ℚ) * (2 : ℚ) ^ ((E : Int) - 1075) := by
  have h52 : (2:Nat) ^ 52 = 4503599627370496 := by norm_num
  have hsign : (E * 2 ^ 52 + f) / 2 ^ 63 % 2 = 0 := by
    rw [show ((2:Nat) ^ 63) = 9223372036854775808 by norm_num, h52] at *
    omega
  have hex : (E * 2 ^ 52 + f) / 2 ^ 52 % 2 ^ 11 = E := by
    rw [show ((2:Nat) ^ 11) = 2048 by norm_num, h52] at *
    omega
  have hfr : (E * 2 ^ 52 + f) % 2 ^ 52 = f := by
    rw [h52] at *
    omega
  simp only [decodeQ, hsign, hex, hfr]
  rw [if_neg (show ¬ E = 0 by omega), if_neg (show ¬ (0 : Nat) = 1 by norm_num)]
  rw [one_mul]

/-- The value assembled for an integer with at most 53 significant bits is
decoded back exactly. -/
theorem decode_specRound_low {v k : Nat} (h1 : 2 ^ k ≤ v) (h2 : v < 2 ^ (k + 1))
    (hk : k ≤ 52) (hlog : Nat.log2 v = k) :
    decodeQ (specRoundTiesDown v) = (v : ℚ) := by
  have hp : (2 : Nat) ^ (k + 1) = 2 * 2 ^ k := by
    rw [pow_succ]
    ring
  have hfb : (v - 2 ^ k) * 2 ^ (52 - k) < 2 ^ 52 := by
    calc (v - 2 ^ k) * 2 ^ (52 - k) < 2 ^ k * 2 ^ (52 - k) :=
          (Nat.mul_lt_mul_right (Nat.pos_pow_of_pos _ (by norm_num))).mpr (by omega)
      _ = 2 ^ 52 := by
          rw [← pow_add]
          congr 1
          omega
  have h2ne : (2 : ℚ) ≠ 0 := by norm_num
  have hveq : (v : ℚ) = ((2 ^ k + (v - 2 ^ k) : Nat) : ℚ) := by
    congr 1
    omega
  have hc1 : ((k + 1023 : ℕ) : ℤ) - 1075 = (k : ℤ) - 52 := by push_cast; ring
  have hzsub : ((52 - k : ℕ) : ℤ) = 52 - (k : ℤ) := by omega
  simp only [specRoundTiesDown, hlog]
  rw [if_pos hk]
  rw [decodeQ_assemble (k + 1023) _ (by omega) (by omega) hfb, hc1, hveq]
  push_cast
  rw [show (4503599627370496 : ℚ) = (2 : ℚ) ^ (52 : ℕ) by norm_num]
  rw [← zpow_natCast (2 : ℚ) 52, ← zpow_natCast (2 : ℚ) (52 - k), ← zpow_natCast (2 : ℚ) k,
    hzsub]
  rw [add_mul, mul_assoc, ← zpow_add₀ h2ne, ← zpow_add₀ h2ne]
  have he1 : ((52 : ℕ) : ℤ) + ((k : ℤ) - 52) = (k : ℤ) := by push_cast; ring
  have he2 : 52 - (k : ℤ) + ((k : ℤ) - 52) = 0 := by ring
  rw [he1, he2, zpow_zero, mul_one]

/-- Decoding the assembled pattern for an integer with more than 53
significant bits: the value is the rounded 53-bit significand scaled by
`2 ^ (k - 52)`. -/
theorem decode_specRound_high {v k : Nat} (h1 : 2 ^ k ≤ v) (h2 : v < 2 ^ (k + 1))
    (hk : 53 ≤ k) (hk63 : k ≤ 63) (hlog : Nat.log2 v = k) :
    decodeQ (specRoundTiesDown v) =
      (((if 2 ^ (k - 52 - 1) < v % 2 ^ (k - 52) then v / 2 ^ (k - 52) + 1
         else v / 2 ^ (k - 52)) : Nat) : ℚ) * (2 : ℚ) ^ ((k : Int) - 52) := by
  have h2ne : (2 : ℚ) ≠ 0 := by norm_num
  have hApos : (0 : Nat) < 2 ^ (k - 52) := Nat.pos_pow_of_pos _ (by norm_num)
  have h2k : (2 : Nat) ^ (k - 52) * 2 ^ 52 = 2 ^ k := by
    rw [← pow_add]
    congr 1
    omega
  have h2k1 : (2 : Nat) ^ (k - 52) * 2 ^ 53 = 2 ^ (k + 1) := by
    rw [← pow_add]
    congr 1
    omega
  have hqlo : 2 ^ 52 ≤ v / 2 ^ (k - 52) := by
    rw [Nat.le_div_iff_mul_le hApos]
    calc 2 ^ 52 * 2 ^ (k - 52) = 2 ^ k := by rw [mul_comm, h2k]
      _ ≤ v := h1
  have hqhi : v / 2 ^ (k - 52) < 2 ^ 53 := by
    apply Nat.div_lt_of_lt_mul
    rw [h2k1]
    exact h2
  have hc1 : ((k + 1023 : ℕ) : ℤ) - 1075 = (k : ℤ) - 52 := by push_cast; ring
  have h52n : (2 : Nat) ^ 52 = 4503599627370496 := by norm_num
  have h53n : (2 : Nat) ^ 53 = 9007199254740992 := by norm_num
  simp only [specRoundTiesDown, hlog]
  rw [if_neg (show ¬ k ≤ 52 by omega)]
  by_cases hcond : 2 ^ (k - 52 - 1) < v % 2 ^ (k - 52)
  · rw [if_pos hcond]
    by_cases hwrap : v / 2 ^ (k - 52) + 1 = 2 ^ 53
    · rw [if_pos hwrap, hwrap]
      have hb : (k + 1 + 1023) * 2 ^ 52 = (k + 1 + 1023) * 2 ^ 52 + 0 := by ring
      rw [hb, decodeQ_assemble (k + 1 + 1023) 0 (by omega) (by omega) (by norm_num)]
      have hc2 : ((k + 1 + 1023 : ℕ) : ℤ) - 1075 = ((k : ℤ) - 52) + 1 := by
        push_cast
        ring
      rw [hc2, zpow_add₀ h2ne, zpow_one]
      push_cast
      ring
    · rw [if_neg hwrap]
      have hfb : v / 2 ^ (k - 52) + 1 - 2 ^ 52 < 2 ^ 52 := by omega
      rw [decodeQ_assemble (k + 1023) _ (by omega) (by omega) hfb, hc1]
      have hcanc : 2 ^ 52 + (v / 2 ^ (k - 52) + 1 - 2 ^ 52) = v / 2 ^ (k - 52) + 1 := by
        omega
      rw [hcanc]
  · rw [if_neg hcond]
    have hnw : ¬ v / 2 ^ (k - 52) = 2 ^ 53 := by omega
    rw [if_neg hnw]
    have hfb : v / 2 ^ (k - 52) - 2 ^ 52 < 2 ^ 52 := by omega
    rw [decodeQ_assemble (k + 1023) _ (by omega) (by omega) hfb, hc1]
    have hcanc : 2 ^ 52 + (v / 2 ^ (k - 52) - 2 ^ 52) = v / 2 ^ (k - 52) := by
      omega
    rw [hcanc]

/-- Every finite double either is an integer multiple of `2 ^ (k - 52)`
(exponent field at least `k + 1023`) or its value is at most
`2 ^ k - 2 ^ (k - 53)`, the largest double strictly below `2 ^ k`. -/
theorem decodeQ_classify (c : Nat) (hc : FiniteD c) (k : Nat) (hk : 53 ≤ k) :
    (∃ n : ℤ, decodeQ c = (n : ℚ) * (2 : ℚ) ^ ((k : Int) - 52)) ∨
      decodeQ c ≤ (2 : ℚ) ^ (k : ℕ) - (2 : ℚ) ^ ((k - 53 : ℕ)) := by
  obtain ⟨hc64, hcE⟩ := hc
  have h2ne : (2 : ℚ) ≠ 0 := by norm_num
  have hElt : c / 2 ^ 52 % 2 ^ 11 ≤ 2046 := by
    have := Nat.mod_lt (c / 2 ^ 52) (show (0:Nat) < 2 ^ 11 by norm_num)
    rw [show ((2:Nat) ^ 11) = 2048 by norm_num] at this
    omega
  have hfub : ((c % 2 ^ 52 : ℕ) : ℚ) ≤ 2 ^ 52 - 1 := by
    have hflt : c % 2 ^ 52 ≤ 2 ^ 52 - 1 := by
      have := Nat.mod_lt c (show (0:Nat) < 2 ^ 52 by norm_num)
      omega
    calc ((c % 2 ^ 52 : ℕ) : ℚ) ≤ ((2 ^ 52 - 1 : ℕ) : ℚ) := by exact_mod_cast hflt
      _ = 2 ^ 52 - 1 := by push_cast; norm_num
  have hrhs1 : (1 : ℚ) ≤ (2 : ℚ) ^ (k : ℕ) - (2 : ℚ) ^ ((k - 53 : ℕ)) := by
    have hnat : 2 ^ (k - 53) + 1 ≤ 2 ^ k := by
      have := Nat.pow_lt_pow_right (show 1 < 2 by norm_num) (show k - 53 < k by omega)
      omega
    have hq : ((2 ^ (k - 53) + 1 : ℕ) : ℚ) ≤ ((2 ^ k : ℕ) : ℚ) := by exact_mod_cast hnat
    push_cast at hq
    linarith
  by_cases hE0 : c / 2 ^ 52 % 2 ^ 11 = 0
  · right
    simp only [decodeQ]
    rw [if_pos hE0]
    by_cases hs : c / 2 ^ 63 % 2 = 1
    · rw [if_pos hs]
      have hnonneg : (0 : ℚ) ≤ ((c % 2 ^ 52 : ℕ) : ℚ) * (2 : ℚ) ^ (-1074 : Int) := by
        positivity
      have hne : (-1 : ℚ) * ((c % 2 ^ 52 : ℕ) : ℚ) * (2 : ℚ) ^ (-1074 : Int) =
          -(((c % 2 ^ 52 : ℕ) : ℚ) * (2 : ℚ) ^ (-1074 : Int)) := by ring
      rw [hne]
      linarith
    · rw [if_neg hs, one_mul]
      have hb1 : ((c % 2 ^ 52 : ℕ) : ℚ) * (2 : ℚ) ^ (-1074 : Int) ≤
          (2 : ℚ) ^ (52 : Int) * (2 : ℚ) ^ (-1074 : Int) := by
        have hfq : ((c % 2 ^ 52 : ℕ) : ℚ) ≤ (2 : ℚ) ^ (52 : Int) := by
          rw [show ((2:ℚ) ^ (52 : Int)) = 2 ^ (52 : ℕ) from zpow_natCast 2 52]
          norm_num at hfub ⊢
          linarith
        exact mul_le_mul_of_nonneg_right hfq (by positivity)
      rw [← zpow_add₀ h2ne] at hb1
      have hb2 : (2 : ℚ) ^ ((52 : Int) + -1074) ≤ 1 := by
        rw [show ((52 : Int) + -1074) = -1022 by norm_num]
        rw [show (1 : ℚ) = (2 : ℚ) ^ (0 : Int) from (zpow_zero 2).symm]
        exact zpow_le_zpow_right₀ (by norm_num) (by norm_num)
      linarith
  · by_cases hEge : k + 1023 ≤ c / 2 ^ 52 % 2 ^ 11
    · left
      have hexp : ((c / 2 ^ 52 % 2 ^ 11 : ℕ) : Int) - 1075 =
          ((c / 2 ^ 52 % 2 ^ 11 - (k + 1023) : ℕ) : Int) + ((k : ℤ) - 52) := by
        omega
      by_cases hs : c / 2 ^ 63 % 2 = 1
      · refine ⟨-(((2 ^ 52 + c % 2 ^ 52) * 2 ^ (c / 2 ^ 52 % 2 ^ 11 - (k + 1023)) : ℕ) : ℤ),
          ?_⟩
        simp only [decodeQ]
        rw [if_neg hE0, if_pos hs, hexp, zpow_add₀ h2ne, Int.cast_neg, Int.cast_natCast]
        push_cast
        rw [zpow_natCast]
        ring
      · refine ⟨(((2 ^ 52 + c % 2 ^ 52) * 2 ^ (c / 2 ^ 52 % 2 ^ 11 - (k + 1023)) : ℕ) : ℤ),
          ?_⟩
        simp only [decodeQ]
        rw [if_neg hE0, if_neg hs, hexp, zpow_add₀ h2ne, Int.cast_natCast]
        push_cast
        rw [zpow_natCast]
        ring
    · right
      simp only [decodeQ]
      rw [if_neg hE0]
      by_cases hs : c / 2 ^ 63 % 2 = 1
      · rw [if_pos hs]
        have hnonneg : (0 : ℚ) ≤ ((2 ^ 52 + c % 2 ^ 52 : ℕ) : ℚ) *
            (2 : ℚ) ^ (((c / 2 ^ 52 % 2 ^ 11 : ℕ) : Int) - 1075) := by
          positivity
        have hne : (-1 : ℚ) * ((2 ^ 52 + c % 2 ^ 52 : ℕ) : ℚ) *
            (2 : ℚ) ^ (((c / 2 ^ 52 % 2 ^ 11 : ℕ) : Int) - 1075) =
            -(((2 ^ 52 + c % 2 ^ 52 : ℕ) : ℚ) *
              (2 : ℚ) ^ (((c / 2 ^ 52 % 2 ^ 11 : ℕ) : Int) - 1075)) := by ring
        rw [hne]
        linarith
      · rw [if_neg hs, one_mul]
        have hsig : ((2 ^ 52 + c % 2 ^ 52 : ℕ) : ℚ) ≤ 2 ^ 53 - 1 := by
          have hn1 : (2 ^ 52 + c % 2 ^ 52 : ℕ) ≤ 2 ^ 53 - 1 := by
            have := Nat.mod_lt c (show (0:Nat) < 2 ^ 52 by norm_num)
            omega
          calc ((2 ^ 52 + c % 2 ^ 52 : ℕ) : ℚ) ≤ ((2 ^ 53 - 1 : ℕ) : ℚ) := by
                exact_mod_cast hn1
            _ = 2 ^ 53 - 1 := by push_cast; norm_num
        have hzle : (2 : ℚ) ^ (((c / 2 ^ 52 % 2 ^ 11 : ℕ) : Int) - 1075) ≤
            (2 : ℚ) ^ ((k : ℤ) - 53) := by
          exact zpow_le_zpow_right₀ (by norm_num) (by omega)
        have hpos2 : (0 : ℚ) < (2 : ℚ) ^ (((c / 2 ^ 52 % 2 ^ 11 : ℕ) : Int) - 1075) := by
          positivity
        have hmul : ((2 ^ 52 + c % 2 ^ 52 : ℕ) : ℚ) *
            (2 : ℚ) ^ (((c / 2 ^ 52 % 2 ^ 11 : ℕ) : Int) - 1075) ≤
            (2 ^ 53 - 1) * (2 : ℚ) ^ ((k : ℤ) - 53) := by
          calc ((2 ^ 52 + c % 2 ^ 52 : ℕ) : ℚ) *
              (2 : ℚ) ^ (((c / 2 ^ 52 % 2 ^ 11 : ℕ) : Int) - 1075)
              ≤ (2 ^ 53 - 1) * (2 : ℚ) ^ (((c / 2 ^ 52 % 2 ^ 11 : ℕ) : Int) - 1075) :=
                mul_le_mul_of_nonneg_right hsig (le_of_lt hpos2)
            _ ≤ (2 ^ 53 - 1) * (2 : ℚ) ^ ((k : ℤ) - 53) :=
                mul_le_mul_of_nonneg_left hzle (by norm_num)
        have hfinal : ((2 : ℚ) ^ (53 : ℕ) - 1) * (2 : ℚ) ^ ((k : ℤ) - 53) =
            (2 : ℚ) ^ (k : ℕ) - (2 : ℚ) ^ ((k - 53 : ℕ)) := by
          have hz1 : ((k : ℤ) - 53) = ((k - 53 : ℕ) : ℤ) := by omega
          rw [hz1, zpow_natCast]
          have hsp : (2 : ℚ) ^ (53 : ℕ) * (2 : ℚ) ^ ((k - 53 : ℕ)) = (2 : ℚ) ^ (k : ℕ) := by
            rw [← pow_add]
            congr 1
            omega
          calc ((2 : ℚ) ^ (53 : ℕ) - 1) * (2 : ℚ) ^ ((k - 53 : ℕ))
              = (2 : ℚ) ^ (53 : ℕ) * (2 : ℚ) ^ ((k - 53 : ℕ)) - (2 : ℚ) ^ ((k - 53 : ℕ)) := by
                ring
            _ = (2 : ℚ) ^ (k : ℕ) - (2 : ℚ) ^ ((k - 53 : ℕ)) := by rw [hsp]
        calc ((2 ^ 52 + c % 2 ^ 52 : ℕ) : ℚ) *
            (2 : ℚ) ^ (((c / 2 ^ 52 % 2 ^ 11 : ℕ) : Int) - 1075)
            ≤ (2 ^ 53 - 1) * (2 : ℚ) ^ ((k : ℤ) - 53) := hmul
          _ = (2 : ℚ) ^ (k : ℕ) - (2 : ℚ) ^ ((k - 53 : ℕ)) := hfinal

/-- `b` is the IEEE-754 double nearest to `v` with ties resolved toward
zero (for nonnegative `v`, toward the smaller value): no finite double is
closer, and an equally close finite double is never smaller. -/
def NearestTZ (v : ℚ) (b : Nat) : Prop :=
  FiniteD b ∧
  (∀ c, FiniteD c → |decodeQ b - v| ≤ |decodeQ c - v|) ∧
  (∀ c, FiniteD c → |decodeQ c - v| = |decodeQ b - v| → decodeQ b ≤ decodeQ c)

/-- Distance from a point between two consecutive multiples of `A` to any
multiple of `A`. -/
theorem int_multiple_dist {A r d : ℤ} (hr1 : 0 ≤ r) (hr2 : r < A) :
    min r (A - r) ≤ |d * A - r| := by
  rcases le_or_lt d 0 with hd | hd
  · have hda : d * A ≤ 0 := mul_nonpos_iff.mpr (Or.inr ⟨hd, by omega⟩)
    have h1 : r ≤ |d * A - r| := le_trans (by omega : r ≤ -(d * A - r)) (neg_le_abs _)
    exact le_trans (min_le_left _ _) h1
  · have hda : A ≤ d * A := le_mul_of_one_le_left (by omega) hd
    have h1 : A - r ≤ |d * A - r| := le_trans (by omega : A - r ≤ d * A - r) (le_abs_self _)
    exact le_trans (min_le_right _ _) h1

/-- A multiple of `A` at distance exactly `r ≤ A/2` from `q*A + r` lies at
or above `q*A`. -/
theorem int_multiple_tie_down {A r d : ℤ} (hr1 : 0 ≤ r) (hr2 : r < A)
    (htie : |d * A - r| = r) : 0 ≤ d := by
  rcases le_or_lt d 0 with hd | hd
  · have hda : d * A ≤ 0 := mul_nonpos_iff.mpr (Or.inr ⟨hd, by omega⟩)
    have habs := (abs_eq hr1).mp htie
    have hdA0 : d * A = 0 := by omega
    rcases mul_eq_zero.mp hdA0 with h0 | h0
    · omega
    · omega
  · omega

/-- A multiple of `A` at distance exactly `A - r < A/2` from `q*A + r`
lies at or above `(q+1)*A`. -/
theorem int_multiple_tie_up {A r d : ℤ} (hr1 : 0 ≤ r) (hr2 : r < A)
    (hhalf : A < 2 * r) (htie : |d * A - r| = A - r) : 1 ≤ d := by
  rcases le_or_lt d 0 with hd | hd
  · have hda : d * A ≤ 0 := mul_nonpos_iff.mpr (Or.inr ⟨hd, by omega⟩)
    have habs := (abs_eq (by omega : (0:ℤ) ≤ A - r)).mp htie
    omega
  · omega

/-- Distance of any double that is a multiple of `A` from the value `v`,
bounded below by the distance to the two neighbouring multiples. -/
theorem dist_ge_of_multiple {v A q r : Nat} {c : Nat} (n : ℤ)
    (hvqr : q * A + r = v) (hr : r < A)
    (hn : decodeQ c = (n : ℚ) * ((A : ℕ) : ℚ)) :
    ((min r (A - r) : ℕ) : ℚ) ≤ |decodeQ c - (v : ℚ)| := by
  have hvZ : (v : ℤ) = (q : ℤ) * (A : ℤ) + (r : ℤ) := by exact_mod_cast hvqr.symm
  have hznn := int_multiple_dist (A := (A : ℤ)) (r := (r : ℤ)) (d := n - (q : ℤ))
    (by positivity) (by exact_mod_cast hr)
  have hrw : (n - (q : ℤ)) * (A : ℤ) - (r : ℤ) = n * (A : ℤ) - (v : ℤ) := by
    rw [hvZ]
    ring
  rw [hrw] at hznn
  have hcd : decodeQ c - (v : ℚ) = ((n * (A : ℤ) - (v : ℤ) : ℤ) : ℚ) := by
    rw [hn]
    push_cast
    ring
  rw [hcd, ← Int.cast_abs]
  have hminZ : ((min r (A - r) : ℕ) : ℤ) ≤ |n * (A : ℤ) - (v : ℤ)| := by
    refine le_trans ?_ hznn
    omega
  exact_mod_cast hminZ

/-- An equally close multiple in the ties-down case lies at or above the
chosen lower multiple. -/
theorem tie_multiple_down {v A q r : Nat} (n : ℤ)
    (hvqr : q * A + r = v) (hr : r < A)
    (htie : |(n : ℚ) * ((A : ℕ) : ℚ) - (v : ℚ)| = ((r : ℕ) : ℚ)) : (q : ℤ) ≤ n := by
  have hvZ : (v : ℤ) = (q : ℤ) * (A : ℤ) + (r : ℤ) := by exact_mod_cast hvqr.symm
  have hcd : (n : ℚ) * ((A : ℕ) : ℚ) - (v : ℚ) = ((n * (A : ℤ) - (v : ℤ) : ℤ) : ℚ) := by
    push_cast
    ring
  rw [hcd, ← Int.cast_abs] at htie
  have htieZ : |n * (A : ℤ) - (v : ℤ)| = (r : ℤ) := by exact_mod_cast htie
  have hrw : n * (A : ℤ) - (v : ℤ) = (n - (q : ℤ)) * (A : ℤ) - (r : ℤ) := by
    rw [hvZ]
    ring
  rw [hrw] at htieZ
  have := int_multiple_tie_down (A := (A : ℤ)) (r := (r : ℤ)) (d := n - (q : ℤ))
    (by positivity) (by exact_mod_cast hr) htieZ
  omega

/-- An equally close multiple in the round-up case lies at or above the
chosen upper multiple. -/
theorem tie_multiple_up {v A q r : Nat} (n : ℤ)
    (hvqr : q * A + r = v) (hr : r < A) (hhalf : A < 2 * r)
    (htie : |(n : ℚ) * ((A : ℕ) : ℚ) - (v : ℚ)| = ((A - r : ℕ) : ℚ)) :
    (q : ℤ) + 1 ≤ n := by
  have hvZ : (v : ℤ) = (q : ℤ) * (A : ℤ) + (r : ℤ) := by exact_mod_cast hvqr.symm
  have hcd : (n : ℚ) * ((A : ℕ) : ℚ) - (v : ℚ) = ((n * (A : ℤ) - (v : ℤ) : ℤ) : ℚ) := by
    push_cast
    ring
  rw [hcd, ← Int.cast_abs] at htie
  have htieZ : |n * (A : ℤ) - (v : ℤ)| = ((A - r : ℕ) : ℤ) := by exact_mod_cast htie
  have htieZ2 : |(n - (q : ℤ)) * (A : ℤ) - (r : ℤ)| = (A : ℤ) - (r : ℤ) := by
    have hrw : (n - (q : ℤ)) * (A : ℤ) - (r : ℤ) = n * (A : ℤ) - (v : ℤ) := by
      rw [hvZ]
      ring
    rw [hrw, htieZ]
    omega
  have := int_multiple_tie_up (A := (A : ℤ)) (r := (r : ℤ)) (d := n - (q : ℤ))
    (by positivity) (by exact_mod_cast hr) (by exact_mod_cast hhalf) htieZ2
  omega

/-- `specRoundTiesDown v` is the finite double nearest to `v`, with ties
resolved toward zero. -/
theorem specRound_nearest {v : Nat} (hv1 : 1 ≤ v) (hv2 : v < 2 ^ 64) :
    NearestTZ (v : ℚ) (specRoundTiesDown v) := by
  obtain ⟨k, hlog⟩ : ∃ k, Nat.log2 v = k := ⟨_, rfl⟩
  have hk1 : 2 ^ k ≤ v := by
    rw [← hlog]
    exact Nat.log2_self_le (by omega)
  have hk2 : v < 2 ^ (k + 1) := by
    rw [← hlog]
    exact Nat.lt_log2_self
  have hk63 : k ≤ 63 := by
    by_contra hgt
    have h64 : (2 : Nat) ^ 64 ≤ 2 ^ k := Nat.pow_le_pow_right (by norm_num) (by omega)
    omega
  have hp : (2 : Nat) ^ (k + 1) = 2 * 2 ^ k := by
    rw [pow_succ]
    ring
  by_cases hk52 : k ≤ 52
  · have hdec : decodeQ (specRoundTiesDown v) = (v : ℚ) :=
      decode_specRound_low hk1 hk2 hk52 hlog
    have hfb : (v - 2 ^ k) * 2 ^ (52 - k) < 2 ^ 52 := by
      calc (v - 2 ^ k) * 2 ^ (52 - k) < 2 ^ k * 2 ^ (52 - k) :=
            (Nat.mul_lt_mul_right (Nat.pos_pow_of_pos _ (by norm_num))).mpr (by omega)
        _ = 2 ^ 52 := by
            rw [← pow_add]
            congr 1
            omega
    have hfin : FiniteD (specRoundTiesDown v) := by
      simp only [specRoundTiesDown, hlog]
      rw [if_pos hk52]
      exact FiniteD_assemble _ _ (by omega) hfb
    refine ⟨hfin, ?_, ?_⟩
    · intro c hc
      rw [hdec, sub_self, abs_zero]
      exact abs_nonneg _
    · intro c hc htie
      rw [hdec, sub_self, abs_zero] at htie
      have h0 : decodeQ c - (v : ℚ) = 0 := abs_eq_zero.mp htie
      rw [hdec]
      linarith
  · have hk53 : 53 ≤ k := by omega
    have hdec := decode_specRound_high hk1 hk2 hk53 hk63 hlog
    have hApos : (0 : Nat) < 2 ^ (k - 52) := Nat.pos_pow_of_pos _ (by norm_num)
    have hhpos : (0 : Nat) < 2 ^ (k - 53) := Nat.pos_pow_of_pos _ (by norm_num)
    have h2k : (2 : Nat) ^ (k - 52) * 2 ^ 52 = 2 ^ k := by
      rw [← pow_add]
      congr 1
      omega
    have h2k1 : (2 : Nat) ^ (k - 52) * 2 ^ 53 = 2 ^ (k + 1) := by
      rw [← pow_add]
      congr 1
      omega
    have hA2 : (2 : Nat) ^ (k - 52) = 2 * 2 ^ (k - 53) := by
      rw [← pow_succ']
      congr 1
      omega
    have hidx : k - 52 - 1 = k - 53 := by omega
    rw [hidx] at hdec
    have hqlo : 2 ^ 52 ≤ v / 2 ^ (k - 52) := by
      rw [Nat.le_div_iff_mul_le hApos]
      calc 2 ^ 52 * 2 ^ (k - 52) = 2 ^ k := by rw [mul_comm, h2k]
        _ ≤ v := hk1
    have hqhi : v / 2 ^ (k - 52) < 2 ^ 53 := by
      apply Nat.div_lt_of_lt_mul
      rw [h2k1]
      exact hk2
    have hrlt : v % 2 ^ (k - 52) < 2 ^ (k - 52) := Nat.mod_lt _ hApos
    have hvqr : v / 2 ^ (k - 52) * 2 ^ (k - 52) + v % 2 ^ (k - 52) = v := by
      rw [mul_comm]
      exact Nat.div_add_mod v _
    have hqA : 2 ^ k ≤ v / 2 ^ (k - 52) * 2 ^ (k - 52) := by
      calc 2 ^ k = 2 ^ 52 * 2 ^ (k - 52) := by rw [mul_comm, h2k]
        _ ≤ v / 2 ^ (k - 52) * 2 ^ (k - 52) := Nat.mul_le_mul_right _ hqlo
    have hA2Q : (2 : ℚ) ^ ((k : ℤ) - 52) = ((2 ^ (k - 52) : ℕ) : ℚ) := by
      rw [show ((k : ℤ) - 52) = ((k - 52 : ℕ) : ℤ) by omega, zpow_natCast]
      push_cast
      ring
    have h2kq : ((2 : ℚ) ^ (k : ℕ)) = ((2 ^ k : ℕ) : ℚ) := by
      push_cast
      ring
    have h2k53q : ((2 : ℚ) ^ ((k - 53 : ℕ))) = ((2 ^ (k - 53) : ℕ) : ℚ) := by
      push_cast
      ring
    have hfin : FiniteD (specRoundTiesDown v) := by
      simp only [specRoundTiesDown, hlog]
      rw [if_neg hk52]
      by_cases hrc0 : 2 ^ (k - 52 - 1) < v % 2 ^ (k - 52)
      · rw [if_pos hrc0]
        by_cases hw : v / 2 ^ (k - 52) + 1 = 2 ^ 53
        · rw [if_pos hw, show (k + 1 + 1023) * 2 ^ 52 = (k + 1 + 1023) * 2 ^ 52 + 0 by ring]
          exact FiniteD_assemble _ 0 (by omega) (by norm_num)
        · rw [if_neg hw]
          exact FiniteD_assemble _ _ (by omega) (by omega)
      · rw [if_neg hrc0, if_neg (show ¬ v / 2 ^ (k - 52) = 2 ^ 53 by omega)]
        exact FiniteD_assemble _ _ (by omega) (by omega)
    by_cases hrc : 2 ^ (k - 53) < v % 2 ^ (k - 52)
    · have hdecb : decodeQ (specRoundTiesDown v) =
          (((v / 2 ^ (k - 52) + 1) * 2 ^ (k - 52) : ℕ) : ℚ) := by
        rw [hdec, if_pos hrc, hA2Q]
        push_cast
        ring
      have hexp : (v / 2 ^ (k - 52) + 1) * 2 ^ (k - 52)
          = v / 2 ^ (k - 52) * 2 ^ (k - 52) + 2 ^ (k - 52) := by ring
      have hub : v ≤ (v / 2 ^ (k - 52) + 1) * 2 ^ (k - 52) := by omega
      have hdistb : |decodeQ (specRoundTiesDown v) - (v : ℚ)| =
          (((2 ^ (k - 52) - v % 2 ^ (k - 52)) : ℕ) : ℚ) := by
        rw [hdecb]
        rw [abs_of_nonneg (by
          rw [sub_nonneg]
          exact_mod_cast hub)]
        rw [← Nat.cast_sub hub]
        congr 1
        omega
      refine ⟨hfin, ?_, ?_⟩
      · intro c hc
        rcases decodeQ_classify c hc k hk53 with ⟨n, hn⟩ | hsmall
        · rw [hdistb]
          have hmin := dist_ge_of_multiple (v := v) (A := 2 ^ (k - 52))
            (q := v / 2 ^ (k - 52)) (r := v % 2 ^ (k - 52)) n hvqr hrlt
            (by rw [hn, hA2Q])
          refine le_trans ?_ hmin
          have hmeq : min (v % 2 ^ (k - 52)) (2 ^ (k - 52) - v % 2 ^ (k - 52))
              = 2 ^ (k - 52) - v % 2 ^ (k - 52) := by omega
          rw [hmeq]
        · rw [hdistb]
          have hnat : 2 ^ (k - 52) - v % 2 ^ (k - 52) + 2 ^ k ≤ v + 2 ^ (k - 53) := by
            omega
          have hcastle : (((2 ^ (k - 52) - v % 2 ^ (k - 52)) : ℕ) : ℚ) + ((2 ^ k : ℕ) : ℚ)
              ≤ (v : ℚ) + ((2 ^ (k - 53) : ℕ) : ℚ) := by exact_mod_cast hnat
          have hvd : (v : ℚ) - decodeQ c ≤ |decodeQ c - (v : ℚ)| := by
            rw [abs_sub_comm]
            exact le_abs_self _
          rw [h2kq, h2k53q] at hsmall
          linarith
      · intro c hc htie
        rcases decodeQ_classify c hc k hk53 with ⟨n, hn⟩ | hsmall
        · rw [hdistb] at htie
          rw [hn, hA2Q] at htie
          have hq1 := tie_multiple_up (v := v) (A := 2 ^ (k - 52))
            (q := v / 2 ^ (k - 52)) (r := v % 2 ^ (k - 52)) n hvqr hrlt (by omega) htie
          have hq2 : ((((v / 2 ^ (k - 52) + 1) * 2 ^ (k - 52)) : ℕ) : ℚ) =
              (((v / 2 ^ (k - 52) + 1 : ℕ)) : ℚ) * ((2 ^ (k - 52) : ℕ) : ℚ) := by
            push_cast
            ring
          rw [hdecb, hn, hA2Q, hq2]
          have h1 : (((v / 2 ^ (k - 52) + 1) : ℕ) : ℤ) ≤ n := by exact_mod_cast hq1
          have hrq : (((v / 2 ^ (k - 52) + 1 : ℕ)) : ℚ) ≤ ((n : ℤ) : ℚ) := by
            rw [← Int.cast_natCast (v / 2 ^ (k - 52) + 1)]
            exact Int.cast_le.mpr h1
          exact mul_le_mul_of_nonneg_right hrq (by positivity)
        · exfalso
          rw [hdistb] at htie
          have hnatS : 2 ^ (k - 52) - v % 2 ^ (k - 52) + 2 ^ k < v + 2 ^ (k - 53) := by
            omega
          have hcastle : (((2 ^ (k - 52) - v % 2 ^ (k - 52)) : ℕ) : ℚ) + ((2 ^ k : ℕ) : ℚ)
              < (v : ℚ) + ((2 ^ (k - 53) : ℕ) : ℚ) := by exact_mod_cast hnatS
          have hvd : (v : ℚ) - decodeQ c ≤ |decodeQ c - (v : ℚ)| := by
            rw [abs_sub_comm]
            exact le_abs_self _
          rw [h2kq, h2k53q] at hsmall
          linarith
    · have hdecb : decodeQ (specRoundTiesDown v) =
          ((v / 2 ^ (k - 52) * 2 ^ (k - 52) : ℕ) : ℚ) := by
        rw [hdec, if_neg hrc, hA2Q]
        push_cast
        ring
      have hle' : v / 2 ^ (k - 52) * 2 ^ (k - 52) ≤ v := by omega
      have hdistb : |decodeQ (specRoundTiesDown v) - (v : ℚ)| =
          ((v % 2 ^ (k - 52) : ℕ) : ℚ) := by
        rw [hdecb, abs_sub_comm]
        rw [abs_of_nonneg (by
          rw [sub_nonneg]
          exact_mod_cast hle')]
        rw [← Nat.cast_sub hle']
        congr 1
        omega
      refine ⟨hfin, ?_, ?_⟩
      · intro c hc
        rcases decodeQ_classify c hc k hk53 with ⟨n, hn⟩ | hsmall
        · rw [hdistb]
          have hmin := dist_ge_of_multiple (v := v) (A := 2 ^ (k - 52))
            (q := v / 2 ^ (k - 52)) (r := v % 2 ^ (k - 52)) n hvqr hrlt
            (by rw [hn, hA2Q])
          refine le_trans ?_ hmin
          have hmeq : min (v % 2 ^ (k - 52)) (2 ^ (k - 52) - v % 2 ^ (k - 52))
              = v % 2 ^ (k - 52) := by omega
          rw [hmeq]
        · rw [hdistb]
          have hnat : v % 2 ^ (k - 52) + 2 ^ k ≤ v + 2 ^ (k - 53) := by omega
          have hcastle : ((v % 2 ^ (k - 52) : ℕ) : ℚ) + ((2 ^ k : ℕ) : ℚ)
              ≤ (v : ℚ) + ((2 ^ (k - 53) : ℕ) : ℚ) := by exact_mod_cast hnat
          have hvd : (v : ℚ) - decodeQ c ≤ |decodeQ c - (v : ℚ)| := by
            rw [abs_sub_comm]
            exact le_abs_self _
          rw [h2kq, h2k53q] at hsmall
          linarith
      · intro c hc htie
        rcases decodeQ_classify c hc k hk53 with ⟨n, hn⟩ | hsmall
        · rw [hdistb] at htie
          rw [hn, hA2Q] at htie
          have hq0 := tie_multiple_down (v := v) (A := 2 ^ (k - 52))
            (q := v / 2 ^ (k - 52)) (r := v % 2 ^ (k - 52)) n hvqr hrlt htie
          have hq2 : (((v / 2 ^ (k - 52) * 2 ^ (k - 52)) : ℕ) : ℚ) =
              (((v / 2 ^ (k - 52) : ℕ)) : ℚ) * ((2 ^ (k - 52) : ℕ) : ℚ) := by
            push_cast
            ring
          rw [hdecb, hn, hA2Q, hq2]
          have hrq : (((v / 2 ^ (k - 52) : ℕ)) : ℚ) ≤ ((n : ℤ) : ℚ) := by
            rw [← Int.cast_natCast (v / 2 ^ (k - 52))]
            exact Int.cast_le.mpr hq0
          exact mul_le_mul_of_nonneg_right hrq (by positivity)
        · exfalso
          rw [hdistb] at htie
          have hnatS : v % 2 ^ (k - 52) + 2 ^ k < v + 2 ^ (k - 53) := by omega
          have hcastle : ((v % 2 ^ (k - 52) : ℕ) : ℚ) + ((2 ^ k : ℕ) : ℚ)
              < (v : ℚ) + ((2 ^ (k - 53) : ℕ) : ℚ) := by exact_mod_cast hnatS
          have hvd : (v : ℚ) - decodeQ c ≤ |decodeQ c - (v : ℚ)| := by
            rw [abs_sub_comm]
            exact le_abs_self _
          rw [h2kq, h2k53q] at hsmall
          linarith

/-- Claim C1 (amended), parse_double.cpp:187-542 and 511-518: for every
pure-digit literal of one to nineteen digits denoting a nonzero value,
`parse_double` succeeds without touching the status, consumes the entire
input, and returns the IEEE-754 double nearest to the literal's exact
value -- but with ties at the 52-bit boundary resolved toward zero
(truncation of the exact half), not to even; the returned pattern is
exactly `specRoundTiesDown` of the value. -/
theorem C1_amended_nearest_ties_toward_zero (ds : List Nat)
    (hds : ∀ d ∈ ds, 48 ≤ d ∧ d ≤ 57) (hne : ds ≠ []) (h19 : ds.length ≤ 19)
    (hv : 1 ≤ digitsVal ds) :
    parse_double status0 ds = ⟨status0, specRoundTiesDown (digitsVal ds), []⟩ ∧
    NearestTZ ((digitsVal ds : ℕ) : ℚ) (parse_double status0 ds).bits := by
  have heq := parse_double_int_eq ds status0 hds hne h19 hv
  have hvlt : digitsVal ds < 2 ^ 64 := by
    have h2 := digitsAcc_lt ds 0 0 (fun d hd => (hds d hd).2) (by norm_num)
    have h3 : (10 : Nat) ^ (0 + ds.length) ≤ 10 ^ 19 :=
      Nat.pow_le_pow_right (by norm_num) (by omega)
    have h4 : (10 : Nat) ^ 19 < 2 ^ 64 := by norm_num
    exact lt_of_lt_of_le (lt_of_lt_of_le h2 h3) (le_of_lt h4)
  refine ⟨heq, ?_⟩
  rw [heq]
  exact specRound_nearest hv hvlt

/-- Witness for the amended claim C1: the one-digit literal `9`. -/
theorem C1_amended_witness :
    parse_double status0 [57] = ⟨status0, specRoundTiesDown (digitsVal [57]), []⟩ ∧
    NearestTZ ((digitsVal [57] : ℕ) : ℚ) (parse_double status0 [57]).bits :=
  C1_amended_nearest_ties_toward_zero [57] (by decide) (by decide) (by decide) (by decide)
